import Mathlib

/-!
Bounded scheduling queue of `request.c`

A shallow embedding of the shared request queue of `src/request.c`:
the admission code of `request_handle` (lines 177-202) and the extraction code
of `thread_request_serve_static` (lines 111-136).

* C `int` values are modelled by `Int`; every index computed by the queue code
  lies below `2 * buffer_max_size`.
* `request_buffer` is a list whose length is the constant
  `DEFAULT_BUFFER_SIZE` of `request.h`, which is a parameter here.
* Undefined behaviour (an array index outside the array, a zero divisor of `%`)
  makes an operation return `none`.
* The code between `pthread_mutex_lock` and `pthread_mutex_unlock` is one
  atomic step; a call whose wait loop does not exit leaves the state as it is.
* The handler `request_handle` and one iteration of the worker are modelled with the
  answers of the connection and of `stat` as arguments and with the calls of `printf`,
  `write_or_die` and `close_or_die` as a list of events.
* A C string is a `String`, `strlen` counts the bytes of its UTF-8 encoding, and a string
  that does not fit the array of `MAXBUF` bytes it is written to is undefined behaviour.
-/

namespace Request

/-! ## Data model -/

/-- The struct `request_t` (request.c lines 21-24). -/
structure request_t where
  fd : Int
  filesize : Int
deriving DecidableEq, Repr

/-- The globals of request.c lines 18-19 and 26-27. -/
structure State where
  buffer_max_size : Int
  scheduling_algo : Int
  request_buffer : List request_t
  buffer_start : Int
  buffer_end : Int
  buffer_count : Int
deriving DecidableEq, Repr

/-! ## C primitives -/

/-- The C expression `a % b` on `int`: truncated remainder, undefined for `b == 0`. -/
def cmod (a b : Int) : Option Int :=
  if b = 0 then none else some (Int.tmod a b)

/-- The array read `request_buffer[i]`, undefined outside the array. -/
def rd (buf : List request_t) (i : Int) : Option request_t :=
  if 0 ≤ i then buf[i.toNat]? else none

/-- The array write `request_buffer[i] = v`, undefined outside the array. -/
def wr (buf : List request_t) (i : Int) (v : request_t) : Option (List request_t) :=
  if 0 ≤ i ∧ i < buf.length then some (buf.set i.toNat v) else none

/-- Conversion of an `off_t` (64 bit) value to `int` (32 bit, two's complement). -/
def int_of_off_t (x : Int) : Int :=
  (x + 2147483648) % 4294967296 - 2147483648

/-- The initialiser `request_t new_request = { fd, sbuf.st_size }` (line 181). -/
def new_request (fd st_size : Int) : request_t :=
  { fd := fd, filesize := int_of_off_t st_size }

/-! ## Admission: `request_handle`, lines 177-202 -/

/-- The test `i >= 0 && request_buffer[idx].filesize > new_request.filesize`
of the while loop at line 191; `&&` does not read the array when `i < 0`. -/
def sff_test (nf : Int) (buf : List request_t) (i idx : Int) : Option Bool :=
  if 0 ≤ i then (rd buf idx).map (fun x => decide (nf < x.filesize)) else some false

/-- The while loop of lines 191-195, run for at most `fuel` iterations. It returns the
buffer and the value of `i` at loop exit. `i` starts at `buffer_count - 1` and falls by one
in each iteration, so `buffer_count` iterations always suffice. -/
def sff_loop (bmax start nf : Int) :
    Nat → List request_t → Int → Int → Option (List request_t × Int)
  | 0, buf, i, idx => do
    let c ← sff_test nf buf i idx
    if c then none else some (buf, i)
  | fuel + 1, buf, i, idx => do
    let c ← sff_test nf buf i idx
    if c then do
      let x ← rd buf idx
      let dst ← cmod (start + i + 1) bmax
      let buf1 ← wr buf dst x
      let idx1 ← cmod (idx - 1 + bmax) bmax
      sff_loop bmax start nf fuel buf1 (i - 1) idx1
    else some (buf, i)

/-- Lines 181-200 of `request_handle`: the insertion that follows the wait loop. -/
def request_handle_enqueue (s : State) (fd st_size : Int) : Option State :=
  let nr := new_request fd st_size
  if s.scheduling_algo = 0 ∨ s.scheduling_algo = 2 then do
    let buf ← wr s.request_buffer s.buffer_end nr
    let e ← cmod (s.buffer_end + 1) s.buffer_max_size
    some { s with request_buffer := buf, buffer_end := e,
                  buffer_count := s.buffer_count + 1 }
  else if s.scheduling_algo = 1 then do
    let i := s.buffer_count - 1
    let idx ← cmod (s.buffer_start + i) s.buffer_max_size
    let (buf, i1) ← sff_loop s.buffer_max_size s.buffer_start nr.filesize
      s.buffer_count.toNat s.request_buffer i idx
    let dst ← cmod (s.buffer_start + i1 + 1) s.buffer_max_size
    let buf1 ← wr buf dst nr
    let e ← cmod (s.buffer_start + s.buffer_count + 1) s.buffer_max_size
    some { s with request_buffer := buf1, buffer_end := e,
                  buffer_count := s.buffer_count + 1 }
  else
    some { s with buffer_count := s.buffer_count + 1 }

/-! ## Extraction: `thread_request_serve_static`, lines 111-136 -/

/-- The for loop of lines 128-130, run for at most `fuel` iterations. From an index inside
the circle the loop walks backward one slot at a time, so it reaches `buffer_start` within
`buffer_max_size` iterations or never. -/
def shift_loop (bmax start : Int) : Nat → List request_t → Int → Option (List request_t)
  | 0, buf, i => if i = start then some buf else none
  | fuel + 1, buf, i =>
    if i = start then some buf
    else do
      let src ← cmod (i - 1 + bmax) bmax
      let x ← rd buf src
      let buf1 ← wr buf i x
      let i1 ← cmod (i - 1 + bmax) bmax
      shift_loop bmax start fuel buf1 i1

/-- Lines 115-120: the index the worker selects; `rnd` is the value of `rand()`. -/
def select_index (s : State) (rnd : Nat) : Option Int :=
  if s.scheduling_algo = 2 then do
    let r ← cmod (rnd : Int) s.buffer_count
    cmod (s.buffer_start + r) s.buffer_max_size
  else some s.buffer_start

/-- Lines 115-134 of `thread_request_serve_static`: the extraction that follows the
wait loop. It returns the new state and `req`. -/
def thread_request_serve_static_dequeue (s : State) (rnd : Nat) : Option (State × request_t) := do
  let index ← select_index s rnd
  let req ← rd s.request_buffer index
  if index = s.buffer_start then do
    let st ← cmod (s.buffer_start + 1) s.buffer_max_size
    some ({ s with buffer_start := st, buffer_count := s.buffer_count - 1 }, req)
  else do
    let buf ← shift_loop s.buffer_max_size s.buffer_start s.buffer_max_size.toNat
      s.request_buffer index
    let st ← cmod (s.buffer_start + 1) s.buffer_max_size
    some ({ s with request_buffer := buf, buffer_start := st,
                   buffer_count := s.buffer_count - 1 }, req)

/-! ## Executions -/

/-- One call on the queue: an admission by `request_handle` with the handle and the
`st_size` of the file, or an extraction by a worker with its value of `rand()`. -/
inductive Op where
  | enqueue (fd st_size : Int)
  | dequeue (rnd : Nat)
deriving DecidableEq, Repr

/-- A queue state with the history of the entries admitted and extracted so far. -/
structure Trace where
  s : State
  admitted : List request_t
  removed : List request_t
deriving DecidableEq, Repr

/-- One critical section. A call whose wait loop (line 178, line 112) does not exit
stays in `pthread_cond_wait` and leaves everything as it is. -/
def exec (t : Trace) : Op → Option Trace
  | Op.enqueue fd st_size =>
    if t.s.buffer_count = t.s.buffer_max_size then some t
    else do
      let s1 ← request_handle_enqueue t.s fd st_size
      some { s := s1, admitted := t.admitted ++ [new_request fd st_size], removed := t.removed }
  | Op.dequeue rnd =>
    if t.s.buffer_count = 0 then some t
    else do
      let (s1, req) ← thread_request_serve_static_dequeue t.s rnd
      some { s := s1, admitted := t.admitted, removed := t.removed ++ [req] }

/-- A sequence of critical sections, in the order the lock serialises them. -/
def run (t : Trace) : List Op → Option Trace
  | [] => some t
  | op :: ops => (exec t op).bind (fun t1 => run t1 ops)

/-- The queue at program start: the zero-initialised array of `DEFAULT_BUFFER_SIZE`
entries and `buffer_start = buffer_end = buffer_count = 0` (lines 26-27). -/
def init (DEFAULT_BUFFER_SIZE : Nat) (bmax algo : Int) : Trace :=
  { s := { buffer_max_size := bmax, scheduling_algo := algo,
           request_buffer := List.replicate DEFAULT_BUFFER_SIZE { fd := 0, filesize := 0 },
           buffer_start := 0, buffer_end := 0, buffer_count := 0 },
    admitted := [], removed := [] }

/-! ## The occupied region -/

/-- Physical slot of the logical position `j`: `(start + j) % bmax`. -/
def slotOf (start bmax j : Int) : Int := Int.tmod (start + j) bmax

/-- Physical slot of logical position `j` of the state `s`. -/
def slot (s : State) (j : Int) : Int := slotOf s.buffer_start s.buffer_max_size j

/-- All the values of a list of optional values, when none is missing. -/
def collect : List (Option request_t) → Option (List request_t)
  | [] => some []
  | none :: _ => none
  | some a :: l => (collect l).map (fun r => a :: r)

/-- The occupied region read head-to-tail: the entries at the physical slots
`(buffer_start + j) % buffer_max_size` for `j = 0 .. buffer_count - 1`; `none` when a
slot lies outside the array. -/
def region (s : State) : Option (List request_t) :=
  collect ((List.range s.buffer_count.toNat).map
    (fun (j : Nat) => rd s.request_buffer (slot s (j : Int))))

/-- The logical offset the worker extracts: `rand() % buffer_count` under the random
policy, `0` (the head) otherwise. -/
def pick (s : State) (rnd : Nat) : Nat :=
  if s.scheduling_algo = 2 then rnd % s.buffer_count.toNat else 0

/-- The state `s` stores the logical queue `l`: the head index is inside the circle, the
count is the length of `l` and fits the capacity, and logical position `j` of the occupied
region holds `l[j]`. -/
structure Rep (s : State) (l : List request_t) : Prop where
  start_nonneg : 0 ≤ s.buffer_start
  start_lt : s.buffer_start < s.buffer_max_size
  count_eq : s.buffer_count = l.length
  count_le : s.buffer_count ≤ s.buffer_max_size
  slots : ∀ j : Nat, j < l.length → rd s.request_buffer (slot s j) = l[j]?

/-- The write position of the admission code is the logical tail:
`buffer_end = (buffer_start + buffer_count) % buffer_max_size`. -/
def tail_ok (s : State) : Prop := s.buffer_end = slot s s.buffer_count

/-- The trace `t` is in a consistent state that stores the logical queue `l`. -/
def Good (t : Trace) (l : List request_t) : Prop := Rep t.s l ∧ tail_ok t.s

/-- The three scheduling policies: 0 FIFO, 1 shortest file first, 2 random. -/
def known_algo (algo : Int) : Prop := algo = 0 ∨ algo = 1 ∨ algo = 2

/-- What the critical section `op` does to the logical queue `l` and to the history.
An admission waits when the queue is full and otherwise inserts the new entry at a
position `p`: the tail unless the policy is 1, where the entries behind `p` are larger
and the entry in front of `p` is not. An extraction waits when the queue is empty and
otherwise removes the position `pick`. -/
def Step (t : Trace) (l : List request_t) : Op → Trace → List request_t → Prop
  | Op.enqueue fd st_size, t1, l1 =>
    (t1.s.scheduling_algo = t.s.scheduling_algo ∧ t1.s.buffer_max_size = t.s.buffer_max_size) ∧
    ((t.s.buffer_count = t.s.buffer_max_size ∧ t1 = t ∧ l1 = l) ∨
     (t.s.buffer_count ≠ t.s.buffer_max_size ∧ ∃ p : Nat, p ≤ l.length ∧
      l1 = l.take p ++ new_request fd st_size :: l.drop p ∧
      t1.admitted = t.admitted ++ [new_request fd st_size] ∧ t1.removed = t.removed ∧
      (t.s.scheduling_algo ≠ 1 → p = l.length) ∧
      (t.s.scheduling_algo = 1 →
        (∀ j : Nat, p ≤ j → j < l.length →
          ∃ y, l[j]? = some y ∧ (new_request fd st_size).filesize < y.filesize) ∧
        (∀ y, 1 ≤ p → l[p - 1]? = some y →
          y.filesize ≤ (new_request fd st_size).filesize))))
  | Op.dequeue rnd, t1, l1 =>
    (t1.s.scheduling_algo = t.s.scheduling_algo ∧ t1.s.buffer_max_size = t.s.buffer_max_size) ∧
    ((t.s.buffer_count = 0 ∧ t1 = t ∧ l1 = l) ∨
     (t.s.buffer_count ≠ 0 ∧ ∃ e : request_t, l[pick t.s rnd]? = some e ∧
      l1 = l.eraseIdx (pick t.s rnd) ∧
      t1.removed = t.removed ++ [e] ∧ t1.admitted = t.admitted))

/-! ## Properties of the logical queue -/

/-- A list of entries is non-decreasing in `filesize`. -/
def sorted_by_size (l : List request_t) : Prop :=
  List.Pairwise (fun a b => a.filesize ≤ b.filesize) l

instance (l : List request_t) : Decidable (sorted_by_size l) := by
  unfold sorted_by_size
  infer_instance

/-- The entries of `l` whose `filesize` is `z`, in the order of `l`. -/
def of_size (z : Int) (l : List request_t) : List request_t :=
  l.filter (fun x => decide (x.filesize = z))

/-! ## Concrete executions -/

/-- Capacity 2, policy 1, after admitting sizes 50 and 10: the queue is full. -/
def full2 : Trace :=
  { s := { buffer_max_size := 2, scheduling_algo := 1,
           request_buffer := [⟨8, 10⟩, ⟨7, 50⟩],
           buffer_start := 0, buffer_end := 0, buffer_count := 2 },
    admitted := [⟨7, 50⟩, ⟨8, 10⟩], removed := [] }

/-- Capacity 2, policy 0: A and B admitted, C waits, A extracted, C admitted, B and C
extracted. The occupied region has wrapped around the end of the array. -/
def fifo_demo : Trace :=
  { s := { buffer_max_size := 2, scheduling_algo := 0,
           request_buffer := [⟨9, 300⟩, ⟨8, 200⟩],
           buffer_start := 1, buffer_end := 1, buffer_count := 0 },
    admitted := [⟨7, 100⟩, ⟨8, 200⟩, ⟨9, 300⟩],
    removed := [⟨7, 100⟩, ⟨8, 200⟩, ⟨9, 300⟩] }

/-- Capacity 3, policy 1, after admitting sizes 50, 10, 30. -/
def sff_demo : Trace :=
  { s := { buffer_max_size := 3, scheduling_algo := 1,
           request_buffer := [⟨8, 10⟩, ⟨9, 30⟩, ⟨7, 50⟩],
           buffer_start := 0, buffer_end := 0, buffer_count := 3 },
    admitted := [⟨7, 50⟩, ⟨8, 10⟩, ⟨9, 30⟩], removed := [] }

/-- The state of `sff_demo` after one extraction. -/
def sff_demo_next : State :=
  { buffer_max_size := 3, scheduling_algo := 1,
    request_buffer := [⟨8, 10⟩, ⟨9, 30⟩, ⟨7, 50⟩],
    buffer_start := 1, buffer_end := 0, buffer_count := 2 }

/-- Capacity 3, policy 2, after admitting three entries. -/
def random_demo : Trace :=
  { s := { buffer_max_size := 3, scheduling_algo := 2,
           request_buffer := [⟨7, 50⟩, ⟨8, 10⟩, ⟨9, 30⟩],
           buffer_start := 0, buffer_end := 0, buffer_count := 3 },
    admitted := [⟨7, 50⟩, ⟨8, 10⟩, ⟨9, 30⟩], removed := [] }

/-- The trace `random_demo` after extractions with the `rand()` values 4, 3, 5. -/
def random_demo_done : Trace :=
  { s := { buffer_max_size := 3, scheduling_algo := 2,
           request_buffer := [⟨7, 50⟩, ⟨7, 50⟩, ⟨7, 50⟩],
           buffer_start := 0, buffer_end := 0, buffer_count := 0 },
    admitted := [⟨7, 50⟩, ⟨8, 10⟩, ⟨9, 30⟩],
    removed := [⟨8, 10⟩, ⟨9, 30⟩, ⟨7, 50⟩] }

/-- Capacity 4, policy 2: the occupied region starts at slot 3 and wraps to slots 0, 1. -/
def wrapped : State :=
  { buffer_max_size := 4, scheduling_algo := 2,
    request_buffer := [⟨2, 20⟩, ⟨3, 30⟩, ⟨0, 0⟩, ⟨1, 10⟩],
    buffer_start := 3, buffer_end := 2, buffer_count := 3 }

/-- The state `wrapped` after the extraction of logical position 1. -/
def wrapped_next : State :=
  { buffer_max_size := 4, scheduling_algo := 2,
    request_buffer := [⟨1, 10⟩, ⟨3, 30⟩, ⟨0, 0⟩, ⟨1, 10⟩],
    buffer_start := 0, buffer_end := 2, buffer_count := 2 }

/-- Capacity 2, policy 0, after two admissions and one extraction. -/
def tail_demo : Trace :=
  { s := { buffer_max_size := 2, scheduling_algo := 0,
           request_buffer := [⟨7, 100⟩, ⟨8, 200⟩],
           buffer_start := 1, buffer_end := 0, buffer_count := 1 },
    admitted := [⟨7, 100⟩, ⟨8, 200⟩], removed := [⟨7, 100⟩] }

/-- Capacity 4, policy 1: the sorted region 10, 30, 50 starts at slot 2 and wraps; it is
about to receive a second request of size 30. -/
def ties : State :=
  { buffer_max_size := 4, scheduling_algo := 1,
    request_buffer := [⟨3, 50⟩, ⟨0, 0⟩, ⟨1, 10⟩, ⟨2, 30⟩],
    buffer_start := 2, buffer_end := 1, buffer_count := 3 }

/-- The state `ties` after the admission of handle 4 with size 30. -/
def ties_next : State :=
  { buffer_max_size := 4, scheduling_algo := 1,
    request_buffer := [⟨4, 30⟩, ⟨3, 50⟩, ⟨1, 10⟩, ⟨2, 30⟩],
    buffer_start := 2, buffer_end := 2, buffer_count := 4 }

/-- Capacity 1, policy 0, after one admission: the queue is full. -/
def full1 : Trace :=
  { s := { buffer_max_size := 1, scheduling_algo := 0,
           request_buffer := [⟨7, 100⟩],
           buffer_start := 0, buffer_end := 0, buffer_count := 1 },
    admitted := [⟨7, 100⟩], removed := [] }

/-- The trace `full1` after one extraction and the admission that was waiting. -/
def full1_next : Trace :=
  { s := { buffer_max_size := 1, scheduling_algo := 0,
           request_buffer := [⟨8, 200⟩],
           buffer_start := 0, buffer_end := 0, buffer_count := 1 },
    admitted := [⟨7, 100⟩, ⟨8, 200⟩], removed := [⟨7, 100⟩] }

/-- Capacity 2, policy 2, after one admission and one extraction: the queue is empty. -/
def empty2 : Trace :=
  { s := { buffer_max_size := 2, scheduling_algo := 2,
           request_buffer := [⟨7, 100⟩, ⟨0, 0⟩],
           buffer_start := 1, buffer_end := 1, buffer_count := 0 },
    admitted := [⟨7, 100⟩], removed := [⟨7, 100⟩] }

/-- The trace `empty2` after the admission of handle 8 and its extraction. -/
def empty2_next : Trace :=
  { s := { buffer_max_size := 2, scheduling_algo := 2,
           request_buffer := [⟨7, 100⟩, ⟨8, 200⟩],
           buffer_start := 0, buffer_end := 0, buffer_count := 0 },
    admitted := [⟨7, 100⟩, ⟨8, 200⟩], removed := [⟨7, 100⟩, ⟨8, 200⟩] }

/-- The for loop of lines 128-130 once more, returning also the values of `i` for which the
body ran, in the order the loop visits them. -/
def shift_loop_visits (bmax start : Int) :
    Nat → List request_t → Int → Option (List request_t × List Int)
  | 0, buf, i => if i = start then some (buf, []) else none
  | fuel + 1, buf, i =>
    if i = start then some (buf, [])
    else do
      let src ← cmod (i - 1 + bmax) bmax
      let x ← rd buf src
      let buf1 ← wr buf i x
      let i1 ← cmod (i - 1 + bmax) bmax
      let (buf2, visited) ← shift_loop_visits bmax start fuel buf1 i1
      some (buf2, i :: visited)

/-- Capacity 3, policy 1: the sorted region 20, 40 starts at slot 2 and wraps. -/
def sff_wrapped : State :=
  { buffer_max_size := 3, scheduling_algo := 1,
    request_buffer := [⟨2, 40⟩, ⟨0, 0⟩, ⟨1, 20⟩],
    buffer_start := 2, buffer_end := 1, buffer_count := 2 }

/-- The state `sff_wrapped` after the admission of handle 9 with size 30. -/
def sff_wrapped_next : State :=
  { buffer_max_size := 3, scheduling_algo := 1,
    request_buffer := [⟨9, 30⟩, ⟨2, 40⟩, ⟨1, 20⟩],
    buffer_start := 2, buffer_end := 2, buffer_count := 3 }

/-- The empty queue of capacity 2 under the policy value 3, after one admission: the count
is 1 and the array still holds its initial zeros. -/
def uncounted_demo : State :=
  { buffer_max_size := 2, scheduling_algo := 3,
    request_buffer := [⟨0, 0⟩, ⟨0, 0⟩],
    buffer_start := 0, buffer_end := 0, buffer_count := 1 }

/-! ## The request handler: `request_handle`, lines 143-207

A C string is modelled by the `String` whose UTF-8 encoding it is, so `strlen` counts
bytes; a zero character inside a string and byte sequences that are not UTF-8 are outside
the model. Every character array of the handler has `MAXBUF` bytes, and storing a string
that does not fit is undefined behaviour (`none`). -/

/-- The constant `MAXBUF` (line 14). -/
def MAXBUF : Nat := 8192

/-- The C call `strlen(s)`: the number of bytes of `s`. -/
def strlen (s : String) : Nat := (s.toList.map Char.utf8Size).sum

/-- Storing the string `s` and its terminating zero byte in a character array of `MAXBUF`
bytes, as `sprintf`, `strcpy`, `strcat` and `sscanf` do without a check, and as
`readline_or_die` does within the size it is given: undefined when `strlen(s) + 1` exceeds
`MAXBUF`. -/
def store (s : String) : Option String :=
  if strlen s < MAXBUF then some s else none

/-- What the code does to the outside: `printf`, `write_or_die` and `close_or_die`. -/
inductive Event where
  | print (s : String)
  | write (fd : Int) (s : String)
  | close (fd : Int)
deriving DecidableEq, Repr

/-- The fields of `struct stat` that the handler reads. -/
structure stat_t where
  st_mode : Nat
  st_size : Int
deriving DecidableEq, Repr

/-- The macro `S_ISREG` of the system header `sys/stat.h` with its Linux values: the file
type bits (mask 61440, octal 170000) are those of a regular file (32768, octal 100000). -/
def S_ISREG (m : Nat) : Bool := decide (Nat.land m 61440 = 32768)

/-- The test `S_IRUSR & m` with the constant `S_IRUSR` of the system header `sys/stat.h`
(256, octal 400, on Linux). -/
def S_IRUSR (m : Nat) : Bool := decide (Nat.land 256 m ≠ 0)

/-- The C call `strcasecmp(a, b)` as a truth value: `true` when the strings differ once
every letter is lowered. -/
def strcasecmp (a b : String) : Bool :=
  decide (a.toList.map Char.toLower ≠ b.toList.map Char.toLower)

/-- The C call `strstr(hay, needle)` as a truth value: `true` when `needle` occurs in
`hay`. -/
def strstr (hay needle : String) : Bool :=
  hay.toList.tails.any (fun t => needle.toList.isPrefixOf t)

/-- White space in the sense of `isspace` in the C locale: the space and the bytes 9 to
13. -/
def isspace (c : Char) : Bool :=
  decide (c.toNat = 32) || (decide (9 ≤ c.toNat) && decide (c.toNat ≤ 13))

/-- One conversion `%s` of `sscanf`: white space is skipped, then the longest run of other
bytes is the token; `none` when the input ends before a token starts. -/
def scan_token (l : List Char) : Option (String × List Char) :=
  let l1 := l.dropWhile isspace
  let tok := l1.takeWhile (fun c => !(isspace c))
  if tok = [] then none else some (String.mk tok, l1.dropWhile (fun c => !(isspace c)))

/-- The call `sscanf(buf, "%s %s %s", method, uri, version)` of line 150. With fewer than
three tokens in `buf` the arrays without a token stay uninitialised and line 151 prints
them: `none`. -/
def sscanf3 (buf : String) : Option (String × String × String) := do
  let (method, r1) ← scan_token buf.toList
  let (uri, r2) ← scan_token r1
  let (version, _) ← scan_token r2
  let method ← store method
  let uri ← store uri
  let version ← store version
  some (method, uri, version)

/-- The string that `request_error` formats into `body` (lines 36-39). -/
def error_body (cause errnum shortmsg longmsg : String) : String :=
  "<!doctype html>\r\n<head><title>WebServer Error</title></head>\r\n<body><h2>"
    ++ errnum ++ ": " ++ shortmsg ++ "</h2><p>" ++ longmsg ++ ": " ++ cause
    ++ "</p></body>\r\n</html>\r\n"

/-- The function `request_error` (lines 33-49): `body` and then, one after the other, three
strings are formatted into `buf`; four writes, then `close_or_die(fd)`. Undefined when
`sprintf` writes more than `MAXBUF` bytes into `body` or `buf`. -/
def request_error (fd : Int) (cause errnum shortmsg longmsg : String) :
    Option (List Event) := do
  let body ← store (error_body cause errnum shortmsg longmsg)
  let buf1 ← store ("HTTP/1.0 " ++ errnum ++ " " ++ shortmsg ++ "\r\n")
  let buf2 ← store "Content-Type: text/html\r\n"
  let buf3 ← store ("Content-Length: " ++ toString (strlen body) ++ "\r\n\r\n")
  some [Event.write fd buf1, Event.write fd buf2, Event.write fd buf3,
        Event.write fd body, Event.close fd]

/-- The function `request_read_headers` (lines 51-57) on the lines the connection
delivers, each as `readline_or_die(fd, buf, MAXBUF)` leaves it in `buf`: it reads lines up
to the first one that is `"\r\n"` and returns the lines left; `none` when no such line
arrives. -/
def request_read_headers : List String → Option (List String)
  | [] => none
  | line :: rest => do
    let buf ← store line
    if buf = "\r\n" then some rest else request_read_headers rest

/-- The function `request_parse_uri` (lines 59-78): the return value (`true` for 1), the
file name and the CGI arguments. `none` for the empty URI, where `uri[strlen(uri)-1]` reads
in front of the array, and when `filename` overflows. -/
def request_parse_uri (uri : String) : Option (Bool × String × String) :=
  if !(strstr uri "cgi") then do
    let cgiargs ← store ""
    let filename ← store ("." ++ uri)
    match uri.toList.getLast? with
    | none => none
    | some c =>
      if c = '/' then do
        let filename ← store (filename ++ "index.html")
        some (true, filename, cgiargs)
      else some (true, filename, cgiargs)
  else do
    let cut := String.mk (uri.toList.takeWhile (fun c => c ≠ '?'))
    let cgiargs ← store (String.mk ((uri.toList.dropWhile (fun c => c ≠ '?')).drop 1))
    let filename ← store ("." ++ cut)
    some (false, filename, cgiargs)

/-- The result of a call of `request_handle` or of one iteration of the worker: the queue
state, what was done to the outside, and whether the call has returned (`false` while it
waits in `pthread_cond_wait`). -/
structure Handled where
  s : State
  out : List Event
  returned : Bool
deriving DecidableEq, Repr

/-- The function `request_handle` (lines 143-207), called with the handle `fd`:
`readline_or_die(fd, buf, MAXBUF)` leaves the request line `line` in `buf`, the connection
then delivers the lines `headers`, and `fs` is the answer of `stat` for a file name. The
result is `none` when an array overflows and when `line` has fewer than three tokens; a
`line` of `MAXBUF` bytes or more is not what `readline_or_die` leaves in `buf` and has no
result either. -/
def request_handle (s : State) (fd : Int) (line : String)
    (headers : List String) (fs : String → Option stat_t) : Option Handled := do
  let buf ← store line
  let (method, uri, version) ← sscanf3 buf
  let out := [Event.print ("method:" ++ method ++ " uri:" ++ uri ++ " version:" ++ version
    ++ "\n")]
  if strcasecmp method "GET" then do
    let err ← request_error fd method "501" "Not Implemented"
      "server does not implement this method"
    some { s := s, out := out ++ err, returned := true }
  else do
    let _ ← request_read_headers headers
    let (is_static, filename, _) ← request_parse_uri uri
    match fs filename with
    | none => do
      let err ← request_error fd filename "404" "Not found" "file not found on server"
      some { s := s, out := out ++ err, returned := true }
    | some sbuf =>
      if is_static then
        if !(S_ISREG sbuf.st_mode) || !(S_IRUSR sbuf.st_mode) then do
          let err ← request_error fd filename "403" "Forbidden" "cannot read this file"
          some { s := s, out := out ++ err, returned := true }
        else if strstr filename ".." then do
          let err ← request_error fd filename "403" "Forbidden"
            "directory traversal attempt blocked"
          some { s := s, out := out ++ err, returned := true }
        else if s.buffer_count = s.buffer_max_size then
          some { s := s, out := out, returned := false }
        else do
          let s1 ← request_handle_enqueue s fd sbuf.st_size
          some { s := s1, out := out, returned := true }
      else do
        let err ← request_error fd filename "501" "Not Implemented"
          "dynamic content not supported"
        some { s := s, out := out ++ err, returned := true }

/-- One iteration of the loop of `thread_request_serve_static` (lines 110-140): the
extraction, the call `request_handle(req.fd)` and, once that has returned,
`close_or_die(req.fd)`. -/
def thread_request_serve_static_iteration (s : State) (rnd : Nat)
    (line : String) (headers : List String) (fs : String → Option stat_t) :
    Option Handled :=
  if s.buffer_count = 0 then some { s := s, out := [], returned := false }
  else do
    let (s1, req) ← thread_request_serve_static_dequeue s rnd
    let h ← request_handle s1 req.fd line headers fs
    if h.returned then some { s := h.s, out := h.out ++ [Event.close req.fd], returned := true }
    else some h

/-- The file name the handler resolves a URI to, in the words of the specification: `"."`
followed by the URI, plus `"index.html"` when the URI ends in `'/'`. -/
def resolved_filename (uri : String) : String :=
  "." ++ uri ++ (if uri.toList.getLast? = some '/' then "index.html" else "")

/-- The first string written to a handle: the status line of a response. -/
def status_line : List Event → Option String
  | [] => none
  | Event.write _ str :: _ => some str
  | _ :: rest => status_line rest

/-- How often `close_or_die` is invoked on the handle `fd`. -/
def closes (fd : Int) (out : List Event) : Nat :=
  out.countP (fun e => decide (e = Event.close fd))

/-- A file system in which every name is a readable regular file of 100 bytes. -/
def fs_regular : String → Option stat_t := fun _ => some { st_mode := 33188, st_size := 100 }

/-- Capacity 2, policy 0: one entry, handle 7, is queued. -/
def one_queued : State :=
  { buffer_max_size := 2, scheduling_algo := 0,
    request_buffer := [⟨7, 100⟩, ⟨0, 0⟩],
    buffer_start := 0, buffer_end := 1, buffer_count := 1 }

/-- The state `one_queued` after the worker has extracted handle 7. -/
def after_dequeue : State :=
  { buffer_max_size := 2, scheduling_algo := 0,
    request_buffer := [⟨7, 100⟩, ⟨0, 0⟩],
    buffer_start := 1, buffer_end := 1, buffer_count := 0 }

/-- The state `after_dequeue` after the handler has admitted handle 7 once more. -/
def requeued : State :=
  { buffer_max_size := 2, scheduling_algo := 0,
    request_buffer := [⟨7, 100⟩, ⟨7, 100⟩],
    buffer_start := 1, buffer_end := 0, buffer_count := 1 }

/-- A method token of 8031 bytes. -/
def long_method : String := String.mk (List.replicate 8031 'X')

/-- A request line of 8044 bytes with the method `long_method`. -/
def long_method_line : String := long_method ++ " / HTTP/1.0\r\n"

/-- A URI of 8119 bytes that climbs out of the served directory. -/
def long_uri : String := "/../" ++ String.mk (List.replicate 8115 'a')

/-- A request line of 8134 bytes: `GET` for `long_uri`. -/
def long_uri_line : String := "GET " ++ long_uri ++ " HTTP/1.0\r\n"

/-! ## Facts about the C primitives -/

theorem cmod_eq {a b : Int} (hb : b ≠ 0) : cmod a b = some (Int.tmod a b) := by
  simp [cmod, hb]

theorem cmod_some {a b r : Int} (h : cmod a b = some r) : b ≠ 0 ∧ r = Int.tmod a b := by
  unfold cmod at h
  split at h
  · simp at h
  · simp at h
    exact ⟨by assumption, h.symm⟩

theorem tmod_cases {a m : Int} (h0 : 0 ≤ a) (h2 : a < 2 * m) :
    (a < m ∧ Int.tmod a m = a) ∨ (m ≤ a ∧ Int.tmod a m = a - m) := by
  have hm : 0 < m := by omega
  rw [Int.tmod_eq_emod h0 (by omega)]
  by_cases h : a < m
  · left
    exact ⟨h, Int.emod_eq_of_lt h0 h⟩
  · right
    refine ⟨by omega, ?_⟩
    have h1 : a % m = (a - m) % m := by
      rw [Int.sub_emod, Int.emod_self, Int.sub_zero, Int.emod_emod]
    rw [h1]
    exact Int.emod_eq_of_lt (by omega) (by omega)

theorem slotOf_cases {st m j : Int} (hs0 : 0 ≤ st) (hs : st < m) (hj0 : 0 ≤ j) (hj : j ≤ m) :
    (st + j < m ∧ slotOf st m j = st + j) ∨ (m ≤ st + j ∧ slotOf st m j = st + j - m) := by
  unfold slotOf
  exact tmod_cases (by omega) (by omega)

theorem slotOf_zero {st m : Int} (hs0 : 0 ≤ st) (hs : st < m) : slotOf st m 0 = st := by
  rcases slotOf_cases hs0 hs (le_refl 0) (by omega) with ⟨_, h⟩ | ⟨_, h⟩ <;> omega

theorem slotOf_range {st m j : Int} (hs0 : 0 ≤ st) (hs : st < m) (hj0 : 0 ≤ j) (hj : j ≤ m) :
    0 ≤ slotOf st m j ∧ slotOf st m j < m := by
  rcases slotOf_cases hs0 hs hj0 hj with ⟨_, h⟩ | ⟨_, h⟩ <;> omega

theorem slotOf_inj {st m j k : Int} (hs0 : 0 ≤ st) (hs : st < m) (hj0 : 0 ≤ j) (hj : j < m)
    (hk0 : 0 ≤ k) (hk : k < m) (h : slotOf st m j = slotOf st m k) : j = k := by
  rcases slotOf_cases hs0 hs hj0 (by omega) with ⟨_, h1⟩ | ⟨_, h1⟩ <;>
  rcases slotOf_cases hs0 hs hk0 (by omega) with ⟨_, h2⟩ | ⟨_, h2⟩ <;> omega

/-- Stepping one slot back, as `(i - 1 + bmax) % bmax` does. -/
theorem slotOf_back {st m j : Int} (hs0 : 0 ≤ st) (hs : st < m) (hj0 : 1 ≤ j) (hj : j ≤ m) :
    Int.tmod (slotOf st m j - 1 + m) m = slotOf st m (j - 1) := by
  rcases slotOf_cases hs0 hs (by omega : (0:Int) ≤ j) hj with ⟨_, h1⟩ | ⟨_, h1⟩ <;>
  rcases slotOf_cases hs0 hs (by omega : (0:Int) ≤ j - 1) (by omega) with ⟨_, h2⟩ | ⟨_, h2⟩ <;>
  rcases @tmod_cases (slotOf st m j - 1 + m) m (by omega) (by omega) with ⟨_, h3⟩ | ⟨_, h3⟩ <;>
  omega

/-- Advancing the head by one slot shifts every logical position by one. -/
theorem slotOf_succ {st m j : Int} (hs0 : 0 ≤ st) (hs : st < m) (hj0 : 0 ≤ j) (hj : j < m) :
    slotOf (Int.tmod (st + 1) m) m j = slotOf st m (j + 1) := by
  have e : Int.tmod (st + 1) m = slotOf st m 1 := rfl
  rw [e]
  rcases slotOf_cases hs0 hs (by omega : (0:Int) ≤ 1) (by omega) with ⟨_, h1⟩ | ⟨_, h1⟩ <;>
  rcases slotOf_cases hs0 hs (by omega : (0:Int) ≤ j + 1) (by omega) with ⟨_, h2⟩ | ⟨_, h2⟩ <;>
  rcases @slotOf_cases (slotOf st m 1) m j (by omega) (by omega) hj0 (by omega)
    with ⟨_, h3⟩ | ⟨_, h3⟩ <;>
  omega

theorem rd_eq_some {buf : List request_t} {i : Int} {x : request_t} (h : rd buf i = some x) :
    0 ≤ i ∧ i < buf.length := by
  unfold rd at h
  split at h
  · rename_i h0
    have := (List.getElem?_eq_some.mp h).1
    exact ⟨h0, by omega⟩
  · simp at h

theorem rd_isSome {buf : List request_t} {i : Int} (h0 : 0 ≤ i) (h1 : i < buf.length) :
    ∃ x, rd buf i = some x := by
  have hlt : i.toNat < buf.length := by omega
  exact ⟨buf[i.toNat], by simp [rd, h0, List.getElem?_eq_getElem hlt]⟩

theorem wr_isSome {buf : List request_t} {i : Int} (v : request_t) (h0 : 0 ≤ i)
    (h1 : i < buf.length) : ∃ buf1, wr buf i v = some buf1 := by
  exact ⟨buf.set i.toNat v, by simp [wr, h0, h1]⟩

theorem wr_some {buf buf1 : List request_t} {i : Int} {v : request_t}
    (h : wr buf i v = some buf1) :
    0 ≤ i ∧ i < buf.length ∧ buf1.length = buf.length ∧ rd buf1 i = some v ∧
      ∀ k, k ≠ i → rd buf1 k = rd buf k := by
  unfold wr at h
  split at h
  · rename_i hb
    simp only [Option.some.injEq] at h
    subst h
    refine ⟨hb.1, hb.2, by simp, ?_, ?_⟩
    · have hlt : i.toNat < buf.length := by omega
      simp [rd, hb.1, List.getElem?_set, hlt]
    · intro k hk
      unfold rd
      by_cases hk0 : 0 ≤ k
      · have hne : i.toNat ≠ k.toNat := by omega
        simp [hk0, List.getElem?_set, hne]
      · simp [hk0]
  · simp at h

/-! ## The gap-closing loop of the worker -/

theorem shift_loop_spec {m st : Int} (hs0 : 0 ≤ st) (hs : st < m) :
    ∀ (r fuel : Nat) (buf : List request_t), r ≤ fuel → (r : Int) < m →
      (∀ j : Nat, j ≤ r → ∃ x, rd buf (slotOf st m j) = some x) →
      ∃ buf1, shift_loop m st fuel buf (slotOf st m r) = some buf1 ∧
        buf1.length = buf.length ∧
        (∀ j : Nat, 1 ≤ j → j ≤ r →
          rd buf1 (slotOf st m j) = rd buf (slotOf st m ((j : Int) - 1))) ∧
        (∀ k : Int, (∀ j : Nat, 1 ≤ j → j ≤ r → k ≠ slotOf st m j) → rd buf1 k = rd buf k) := by
  intro r
  induction r with
  | zero =>
    intro fuel buf _ _ _
    refine ⟨buf, ?_, rfl, ?_, ?_⟩
    · have h0 : slotOf st m ((0 : Nat) : Int) = st := slotOf_zero hs0 hs
      rw [h0]
      cases fuel <;> simp [shift_loop]
    · intro j h1 h2
      omega
    · intro k _
      rfl
  | succ r ih =>
    intro fuel buf hfuel hr hrd
    obtain ⟨f, rfl⟩ : ∃ f, fuel = f + 1 := ⟨fuel - 1, by omega⟩
    have hm0 : m ≠ 0 := by omega
    have hr1 : ((r + 1 : Nat) : Int) = (r : Int) + 1 := by push_cast; rfl
    have hne : slotOf st m ((r + 1 : Nat) : Int) ≠ st := by
      intro h
      have h0 := slotOf_zero hs0 hs
      have := @slotOf_inj st m ((r + 1 : Nat) : Int) 0 hs0 hs (by omega) (by omega)
        (by omega) (by omega) (by rw [h, h0])
      omega
    have hback : Int.tmod (slotOf st m ((r + 1 : Nat) : Int) - 1 + m) m = slotOf st m (r : Int) := by
      have := @slotOf_back st m ((r + 1 : Nat) : Int) hs0 hs (by omega) (by omega)
      rw [this, hr1]
      congr 1
      omega
    obtain ⟨x, hx⟩ := hrd r (by omega)
    obtain ⟨y, hy⟩ := hrd (r + 1) (le_refl _)
    have hyb := rd_eq_some hy
    obtain ⟨buf1, hw⟩ := wr_isSome x hyb.1 hyb.2
    obtain ⟨_, _, hlen, hsame, hother⟩ := wr_some hw
    have hdiff : ∀ j : Nat, j ≤ r → slotOf st m (j : Int) ≠ slotOf st m ((r + 1 : Nat) : Int) := by
      intro j hj h
      have := @slotOf_inj st m (j : Int) ((r + 1 : Nat) : Int) hs0 hs (by omega) (by omega)
        (by omega) (by omega) h
      omega
    have hrd1 : ∀ j : Nat, j ≤ r → ∃ x, rd buf1 (slotOf st m j) = some x := by
      intro j hj
      obtain ⟨z, hz⟩ := hrd j (by omega)
      exact ⟨z, by rw [hother _ (hdiff j hj), hz]⟩
    obtain ⟨buf2, hloop, hlen2, hshift, hrest⟩ := ih f buf1 (by omega) (by omega) hrd1
    refine ⟨buf2, ?_, by rw [hlen2, hlen], ?_, ?_⟩
    · simp only [shift_loop, if_neg hne, cmod_eq hm0, hback, Option.bind_eq_bind,
        Option.some_bind, hx, hw]
      exact hloop
    · intro j h1 h2
      by_cases hj : j ≤ r
      · rw [hshift j h1 hj]
        apply hother
        have := hdiff (j - 1) (by omega)
        have e : (((j - 1 : Nat)) : Int) = (j : Int) - 1 := by omega
        rwa [e] at this
      · have hj1 : j = r + 1 := by omega
        subst hj1
        rw [hrest _ (fun j h1 h2 => (hdiff j h2).symm), hsame, hr1]
        rw [← hx]
        congr 2
        omega
    · intro k hk
      rw [hrest k (fun j h1 h2 => hk j h1 (by omega))]
      exact hother k (hk (r + 1) (by omega) (le_refl _))

/-! ## The occupied region as a list -/

theorem collect_eq_some {xs : List (Option request_t)} {l : List request_t} :
    collect xs = some l ↔ xs = l.map some := by
  induction xs generalizing l with
  | nil => cases l <;> simp [collect]
  | cons x xs ih =>
    cases x with
    | none => cases l <;> simp [collect]
    | some a =>
      cases l with
      | nil => simp [collect]
      | cons b l =>
        simp only [collect, Option.map_eq_some', List.map_cons, List.cons.injEq,
          Option.some.injEq]
        constructor
        · rintro ⟨r, hr, h1, h2⟩
          exact ⟨h1, by rw [← h2]; exact ih.mp hr⟩
        · rintro ⟨h1, h2⟩
          exact ⟨l, ih.mpr h2, h1, rfl⟩

theorem region_eq_some {s : State} {l : List request_t} :
    region s = some l ↔
      l.length = s.buffer_count.toNat ∧
        ∀ j : Nat, j < l.length → rd s.request_buffer (slot s j) = l[j]? := by
  unfold region
  rw [collect_eq_some]
  constructor
  · intro h
    have hlen : l.length = s.buffer_count.toNat := by
      have := congrArg List.length h
      simpa using this.symm
    refine ⟨hlen, fun j hj => ?_⟩
    have := congrArg (fun x => x[j]?) h
    simp only [List.getElem?_map] at this
    rw [List.getElem?_range (by omega)] at this
    simp only [Option.map_some'] at this
    rw [List.getElem?_eq_getElem hj] at this ⊢
    simpa using this
  · rintro ⟨hlen, h⟩
    apply List.ext_getElem?
    intro j
    simp only [List.getElem?_map]
    by_cases hj : j < l.length
    · rw [List.getElem?_range (by omega), List.getElem?_eq_getElem hj]
      simp only [Option.map_some']
      rw [h j hj, List.getElem?_eq_getElem hj]
    · rw [List.getElem?_eq_none (by simp; omega), List.getElem?_eq_none (by omega)]
      rfl

theorem Rep.region_eq {s : State} {l : List request_t} (h : Rep s l) : region s = some l :=
  region_eq_some.mpr ⟨by have := h.count_eq; omega, h.slots⟩

theorem Rep.of_region {s : State} {l : List request_t} (h : region s = some l)
    (h0 : 0 ≤ s.buffer_start) (h1 : s.buffer_start < s.buffer_max_size)
    (h2 : 0 ≤ s.buffer_count) (h3 : s.buffer_count ≤ s.buffer_max_size) : Rep s l := by
  obtain ⟨hlen, hs⟩ := region_eq_some.mp h
  exact ⟨h0, h1, by omega, h3, hs⟩

/-! ## Extraction removes one logical position -/

theorem remove_spec {s : State} {l : List request_t} (hrep : Rep s l)
    (hpos : s.buffer_count ≠ 0) (rnd : Nat) :
    ∃ s1 e, pick s rnd < l.length ∧ l[pick s rnd]? = some e ∧
      select_index s rnd = some (slot s (pick s rnd)) ∧
      thread_request_serve_static_dequeue s rnd = some (s1, e) ∧
      Rep s1 (l.eraseIdx (pick s rnd)) ∧
      s1.buffer_max_size = s.buffer_max_size ∧ s1.scheduling_algo = s.scheduling_algo ∧
      s1.buffer_end = s.buffer_end ∧ s1.buffer_start = slot s 1 ∧
      s1.buffer_count = s.buffer_count - 1 ∧
      s1.request_buffer.length = s.request_buffer.length := by
  obtain ⟨hs0, hs, hcnt, hle, hslots⟩ := hrep
  have hm0 : s.buffer_max_size ≠ 0 := by omega
  have hlen : 0 < l.length := by omega
  have hr : pick s rnd < l.length := by
    unfold pick
    split
    · rw [hcnt]
      simpa using Nat.mod_lt _ hlen
    · exact hlen
  have hsel : select_index s rnd = some (slot s (pick s rnd)) := by
    unfold select_index pick
    split
    · rw [cmod_eq hpos]
      simp only [Option.bind_eq_bind, Option.some_bind]
      rw [cmod_eq hm0, hcnt]
      simp only [Int.toNat_ofNat, Int.ofNat_tmod]
      rfl
    · simp [slot, slotOf_zero hs0 hs]
  obtain ⟨e, he⟩ : ∃ e, l[pick s rnd]? = some e := ⟨l[pick s rnd], List.getElem?_eq_getElem hr⟩
  have hreq : rd s.request_buffer (slot s (pick s rnd)) = some e := by
    rw [hslots _ hr, he]
  have hst : cmod (s.buffer_start + 1) s.buffer_max_size = some (slot s 1) := by
    rw [cmod_eq hm0]; rfl
  have hst_range := @slotOf_range s.buffer_start s.buffer_max_size 1 hs0 hs (by omega) (by omega)
  -- the buffer after the gap has been closed
  obtain ⟨buf1, hbuf, hlen1, hshift, hrest⟩ :
      ∃ buf1, (if slot s (pick s rnd) = s.buffer_start then some s.request_buffer
          else shift_loop s.buffer_max_size s.buffer_start s.buffer_max_size.toNat
            s.request_buffer (slot s (pick s rnd))) = some buf1 ∧
        buf1.length = s.request_buffer.length ∧
        (∀ j : Nat, 1 ≤ j → j ≤ pick s rnd →
          rd buf1 (slot s j) = rd s.request_buffer (slot s ((j : Int) - 1))) ∧
        (∀ k : Int, (∀ j : Nat, 1 ≤ j → j ≤ pick s rnd → k ≠ slot s j) →
          rd buf1 k = rd s.request_buffer k) := by
    by_cases h0 : slot s (pick s rnd) = s.buffer_start
    · have hz : pick s rnd = 0 := by
        have h00 := slotOf_zero hs0 hs
        have := @slotOf_inj s.buffer_start s.buffer_max_size (pick s rnd : Int) 0 hs0 hs
          (by omega) (by omega) (by omega) (by omega) (by rw [h00]; exact h0)
        omega
      refine ⟨s.request_buffer, by rw [if_pos h0], rfl, ?_, fun _ _ => rfl⟩
      intro j h1 h2
      omega
    · rw [if_neg h0]
      exact shift_loop_spec hs0 hs (pick s rnd) _ s.request_buffer (by omega) (by omega)
        (fun j hj => by
          have hj1 : j < l.length := by omega
          exact ⟨l[j], by
            have := hslots j hj1
            rw [List.getElem?_eq_getElem hj1] at this
            exact this⟩)
  refine ⟨{ s with request_buffer := buf1, buffer_start := slot s 1,
                   buffer_count := s.buffer_count - 1 }, e, hr, he, hsel, ?_, ?_,
    rfl, rfl, rfl, rfl, rfl, hlen1⟩
  · unfold thread_request_serve_static_dequeue
    simp only [hsel, Option.bind_eq_bind, Option.some_bind, hreq]
    by_cases h0 : slot s (pick s rnd) = s.buffer_start
    · rw [if_pos h0] at hbuf
      simp only [Option.some.injEq] at hbuf
      subst hbuf
      simp [h0, hst]
    · rw [if_neg h0] at hbuf
      simp [h0, hst, hbuf]
  · have hlen2 : (l.eraseIdx (pick s rnd)).length = l.length - 1 :=
      List.length_eraseIdx_of_lt hr
    refine ⟨hst_range.1, hst_range.2, ?_, ?_, ?_⟩
    · show s.buffer_count - 1 = _
      rw [hlen2]
      omega
    · show s.buffer_count - 1 ≤ s.buffer_max_size
      omega
    · intro j hj
      rw [hlen2] at hj
      show rd buf1 (slotOf (slot s 1) s.buffer_max_size j) = _
      have hsucc : slotOf (slot s 1) s.buffer_max_size j = slot s ((j + 1 : Nat) : Int) := by
        have := @slotOf_succ s.buffer_start s.buffer_max_size (j : Int) hs0 hs
          (by omega) (by omega)
        simpa [slot, slotOf] using this
      rw [hsucc]
      by_cases hjr : j < pick s rnd
      · rw [hshift (j + 1) (by omega) (by omega), List.getElem?_eraseIdx_of_lt _ _ _ hjr]
        have e1 : (((j + 1 : Nat) : Int) - 1) = (j : Int) := by omega
        rw [e1]
        exact hslots j (by omega)
      · rw [List.getElem?_eraseIdx_of_ge _ _ _ (by omega)]
        rw [hrest]
        · exact hslots (j + 1) (by omega)
        · intro k h1 h2 h
          have := @slotOf_inj s.buffer_start s.buffer_max_size ((j + 1 : Nat) : Int) (k : Int)
            hs0 hs (by omega) (by omega) (by omega) (by omega) h
          omega

/-! ## The backward scan of the shortest-file-first insertion -/

theorem slotOf_next {st m j : Int} (hs0 : 0 ≤ st) (hs : st < m) (hj0 : 0 ≤ j) (hj : j < m) :
    Int.tmod (slotOf st m j + 1) m = slotOf st m (j + 1) := by
  rcases slotOf_cases hs0 hs hj0 (by omega) with ⟨_, h1⟩ | ⟨_, h1⟩ <;>
  rcases slotOf_cases hs0 hs (by omega : (0:Int) ≤ j + 1) (by omega) with ⟨_, h2⟩ | ⟨_, h2⟩ <;>
  rcases @tmod_cases (slotOf st m j + 1) m (by omega) (by omega) with ⟨_, h3⟩ | ⟨_, h3⟩ <;>
  omega

theorem sff_loop_spec {m st : Int} (nf : Int) (l : List request_t) (hs0 : 0 ≤ st) (hs : st < m) :
    ∀ (k fuel : Nat) (buf : List request_t) (idx : Int), k ≤ fuel → (k : Int) < m →
      k ≤ l.length →
      (∀ j : Nat, j < k → rd buf (slotOf st m j) = l[j]?) →
      (1 ≤ k → idx = slotOf st m ((k : Int) - 1)) →
      slotOf st m k < buf.length →
      ∃ (p : Nat) (buf1 : List request_t), p ≤ k ∧
        sff_loop m st nf fuel buf ((k : Int) - 1) idx = some (buf1, (p : Int) - 1) ∧
        buf1.length = buf.length ∧
        (∀ j : Nat, p < j → j ≤ k → rd buf1 (slotOf st m j) = l[j - 1]?) ∧
        (∀ x : Int, (∀ j : Nat, p < j → j ≤ k → x ≠ slotOf st m j) → rd buf1 x = rd buf x) ∧
        (∀ j : Nat, p ≤ j → j < k → ∃ y, l[j]? = some y ∧ nf < y.filesize) ∧
        (∀ y, 1 ≤ p → l[p - 1]? = some y → y.filesize ≤ nf) := by
  intro k
  induction k with
  | zero =>
    intro fuel buf idx _ _ _ _ _ _
    refine ⟨0, buf, le_refl _, ?_, rfl, ?_, fun _ _ => rfl, ?_, ?_⟩
    · cases fuel <;> simp [sff_loop, sff_test]
    · intro j h1 h2; omega
    · intro j h1 h2; omega
    · intro y h1; omega
  | succ k ih =>
    intro fuel buf idx hfuel hk hkl hrd hidx hgap
    have hm0 : m ≠ 0 := by omega
    have hk1 : ((k + 1 : Nat) : Int) = (k : Int) + 1 := by push_cast; rfl
    have hi : ((k + 1 : Nat) : Int) - 1 = (k : Int) := by omega
    have hidx1 : idx = slotOf st m (k : Int) := by rw [hidx (by omega), hi]
    subst hidx1
    obtain ⟨y, hy⟩ : ∃ y, l[k]? = some y := ⟨l[k], List.getElem?_eq_getElem (by omega)⟩
    have hrdk : rd buf (slotOf st m (k : Int)) = some y := by rw [hrd k (by omega), hy]
    have htest : sff_test nf buf (k : Int) (slotOf st m (k : Int)) =
        some (decide (nf < y.filesize)) := by
      simp [sff_test, hrdk]
    by_cases hlt : nf < y.filesize
    · -- the entry is larger: it moves one slot toward the tail
      obtain ⟨f, rfl⟩ : ∃ f, fuel = f + 1 := ⟨fuel - 1, by omega⟩
      have hgap0 := (@slotOf_range st m ((k + 1 : Nat) : Int) hs0 hs (by omega) (by omega)).1
      obtain ⟨buf1, hw⟩ := wr_isSome y hgap0 hgap
      obtain ⟨_, _, hlen, hsame, hother⟩ := wr_some hw
      have hdst : cmod (st + (k : Int) + 1) m = some (slotOf st m ((k + 1 : Nat) : Int)) := by
        rw [cmod_eq hm0, hk1]
        unfold slotOf
        congr 2
        omega
      have hdiff : ∀ j : Nat, j ≤ k →
          slotOf st m (j : Int) ≠ slotOf st m ((k + 1 : Nat) : Int) := by
        intro j hj h
        have := @slotOf_inj st m (j : Int) ((k + 1 : Nat) : Int) hs0 hs (by omega) (by omega)
          (by omega) (by omega) h
        omega
      have hrd1 : ∀ j : Nat, j < k → rd buf1 (slotOf st m j) = l[j]? := by
        intro j hj
        rw [hother _ (hdiff j (by omega))]
        exact hrd j (by omega)
      have hidx2 : 1 ≤ k → Int.tmod (slotOf st m (k : Int) - 1 + m) m =
          slotOf st m ((k : Int) - 1) := by
        intro h1
        exact slotOf_back hs0 hs (by omega) (by omega)
      have hgap1 : slotOf st m (k : Int) < buf1.length := by
        rw [hlen]
        exact (rd_eq_some hrdk).2
      obtain ⟨p, buf2, hp, hloop, hlen2, hshift, hrest, hbig, hsmall⟩ :=
        ih f buf1 (Int.tmod (slotOf st m (k : Int) - 1 + m) m) (by omega) (by omega)
          (by omega) hrd1 hidx2 hgap1
      refine ⟨p, buf2, by omega, ?_, by rw [hlen2, hlen], ?_, ?_, ?_, hsmall⟩
      · rw [hi]
        simp only [sff_loop, htest, hlt, decide_True, if_true, Option.bind_eq_bind,
          Option.some_bind, hrdk, hdst, hw, cmod_eq hm0]
        exact hloop
      · intro j h1 h2
        by_cases hj : j ≤ k
        · exact hshift j h1 hj
        · have hj1 : j = k + 1 := by omega
          subst hj1
          rw [hrest _ (fun j _ h2 => (hdiff j h2).symm), hsame]
          simpa using hy.symm
      · intro x hx
        rw [hrest x (fun j h1 h2 => hx j h1 (by omega))]
        exact hother x (hx (k + 1) (by omega) (le_refl _))
      · intro j h1 h2
        by_cases hj : j < k
        · exact hbig j h1 hj
        · have hj1 : j = k := by omega
          subst hj1
          exact ⟨y, hy, hlt⟩
    · -- the scan stops in front of this entry
      refine ⟨k + 1, buf, le_refl _, ?_, rfl, ?_, fun _ _ => rfl, ?_, ?_⟩
      · rw [hi]
        cases fuel <;> simp [sff_loop, htest, hlt]
      · intro j h1 h2; omega
      · intro j h1 h2; omega
      · intro z _ hz
        simp only [Nat.add_sub_cancel] at hz
        rw [hy] at hz
        simp only [Option.some.injEq] at hz
        subst hz
        omega

/-! ## Admission inserts one entry -/

theorem getElem?_take_cons_drop (l : List request_t) (e : request_t) (p j : Nat)
    (hp : p ≤ l.length) :
    (l.take p ++ e :: l.drop p)[j]? =
      if j < p then l[j]? else if j = p then some e else l[j - 1]? := by
  have hlen : (l.take p).length = p := by simp [hp]
  by_cases h1 : j < p
  · rw [if_pos h1, List.getElem?_append_left (by omega), List.getElem?_take_of_lt h1]
  · rw [if_neg h1, List.getElem?_append_right (by omega), hlen]
    by_cases h2 : j = p
    · subst h2
      simp
    · rw [if_neg h2]
      obtain ⟨n, hn⟩ : ∃ n, j - p = n + 1 := ⟨j - p - 1, by omega⟩
      rw [hn, List.getElem?_cons_succ, List.getElem?_drop]
      congr 1
      omega

theorem admit_fifo_spec {s : State} {l : List request_t} (hrep : Rep s l)
    (halgo : s.scheduling_algo = 0 ∨ s.scheduling_algo = 2)
    (hend : s.buffer_end = slot s s.buffer_count)
    (hfull : s.buffer_count ≠ s.buffer_max_size)
    (hgap : slot s s.buffer_count < s.request_buffer.length) (fd st_size : Int) :
    ∃ s1, request_handle_enqueue s fd st_size = some s1 ∧
      Rep s1 (l ++ [new_request fd st_size]) ∧
      s1.buffer_end = slot s1 s1.buffer_count ∧
      s1.buffer_max_size = s.buffer_max_size ∧ s1.scheduling_algo = s.scheduling_algo ∧
      s1.buffer_start = s.buffer_start ∧ s1.buffer_count = s.buffer_count + 1 ∧
      s1.request_buffer.length = s.request_buffer.length := by
  obtain ⟨hs0, hs, hcnt, hle, hslots⟩ := hrep
  have hm0 : s.buffer_max_size ≠ 0 := by omega
  have hrange := @slotOf_range s.buffer_start s.buffer_max_size s.buffer_count hs0 hs
    (by omega) (by omega)
  obtain ⟨buf1, hw⟩ := wr_isSome (new_request fd st_size) hrange.1 hgap
  obtain ⟨_, _, hlen, hsame, hother⟩ := wr_some hw
  refine ⟨{ s with request_buffer := buf1,
                   buffer_end := Int.tmod (s.buffer_end + 1) s.buffer_max_size,
                   buffer_count := s.buffer_count + 1 }, ?_, ?_, ?_, rfl, rfl, rfl, rfl, hlen⟩
  · have hw1 : wr s.request_buffer s.buffer_end (new_request fd st_size) = some buf1 := by
      rw [hend]
      exact hw
    unfold request_handle_enqueue
    simp [halgo, hw1, cmod_eq hm0]
  · refine ⟨hs0, hs, ?_, ?_, ?_⟩
    · show s.buffer_count + 1 = _
      simp only [List.length_append, List.length_singleton]
      push_cast
      omega
    · show s.buffer_count + 1 ≤ s.buffer_max_size
      omega
    · intro j hj
      simp only [List.length_append, List.length_singleton] at hj
      show rd buf1 (slotOf s.buffer_start s.buffer_max_size j) = _
      by_cases hjl : j < l.length
      · rw [List.getElem?_append_left hjl, ← hslots j hjl]
        apply hother
        intro h
        have := @slotOf_inj s.buffer_start s.buffer_max_size (j : Int) s.buffer_count hs0 hs
          (by omega) (by omega) (by omega) (by omega) h
        omega
      · have hj1 : (j : Int) = s.buffer_count := by omega
        have hj2 : j = l.length := by omega
        rw [hj1, List.getElem?_append_right (by omega), hj2]
        simpa using hsame
  · show Int.tmod (s.buffer_end + 1) s.buffer_max_size =
      slotOf s.buffer_start s.buffer_max_size (s.buffer_count + 1)
    rw [hend]
    exact slotOf_next hs0 hs (by omega) (by omega)

theorem admit_sff_spec {s : State} {l : List request_t} (hrep : Rep s l)
    (halgo : s.scheduling_algo = 1)
    (hfull : s.buffer_count ≠ s.buffer_max_size)
    (hgap : slot s s.buffer_count < s.request_buffer.length) (fd st_size : Int) :
    ∃ (s1 : State) (p : Nat), p ≤ l.length ∧ request_handle_enqueue s fd st_size = some s1 ∧
      Rep s1 (l.take p ++ new_request fd st_size :: l.drop p) ∧
      s1.buffer_end = slot s1 s1.buffer_count ∧
      s1.buffer_max_size = s.buffer_max_size ∧ s1.scheduling_algo = s.scheduling_algo ∧
      s1.buffer_start = s.buffer_start ∧ s1.buffer_count = s.buffer_count + 1 ∧
      s1.request_buffer.length = s.request_buffer.length ∧
      (∀ j : Nat, p ≤ j → j < l.length →
        ∃ y, l[j]? = some y ∧ (new_request fd st_size).filesize < y.filesize) ∧
      (∀ y, 1 ≤ p → l[p - 1]? = some y → y.filesize ≤ (new_request fd st_size).filesize) := by
  obtain ⟨hs0, hs, hcnt, hle, hslots⟩ := hrep
  have hm0 : s.buffer_max_size ≠ 0 := by omega
  have hk : ((l.length : Nat) : Int) < s.buffer_max_size := by omega
  obtain ⟨p, buf1, hp, hloop, hlen1, hshift, hrest, hbig, hsmall⟩ :=
    sff_loop_spec (new_request fd st_size).filesize l hs0 hs l.length l.length
      s.request_buffer (Int.tmod (s.buffer_start + (s.buffer_count - 1)) s.buffer_max_size)
      (le_refl _) hk (le_refl _) hslots
      (fun _ => by rw [hcnt]; rfl) (by rw [← hcnt]; exact hgap)
  have hprange := @slotOf_range s.buffer_start s.buffer_max_size (p : Int) hs0 hs
    (by omega) (by omega)
  have hpin : slotOf s.buffer_start s.buffer_max_size (p : Int) < buf1.length := by
    rw [hlen1]
    by_cases hpl : p < l.length
    · have := hslots p hpl
      rw [List.getElem?_eq_getElem hpl] at this
      exact (rd_eq_some this).2
    · have hpe : (p : Int) = s.buffer_count := by omega
      rw [hpe]
      exact hgap
  obtain ⟨buf2, hw⟩ := wr_isSome (new_request fd st_size) hprange.1 hpin
  obtain ⟨_, _, hlen2, hsame, hother⟩ := wr_some hw
  have hdst : Int.tmod (s.buffer_start + ((p : Int) - 1) + 1) s.buffer_max_size =
      slotOf s.buffer_start s.buffer_max_size (p : Int) := by
    unfold slotOf
    congr 1
    omega
  refine ⟨{ s with request_buffer := buf2,
                   buffer_end := Int.tmod (s.buffer_start + s.buffer_count + 1) s.buffer_max_size,
                   buffer_count := s.buffer_count + 1 }, p, hp, ?_, ?_, ?_, rfl, rfl, rfl, rfl,
    by rw [hlen2, hlen1], ?_, hsmall⟩
  · unfold request_handle_enqueue
    have hcnt2 : s.buffer_count.toNat = l.length := by omega
    have hcnt3 : s.buffer_count - 1 = (l.length : Int) - 1 := by omega
    rw [hcnt3] at hloop
    simp only [halgo, hcnt2, hcnt3, cmod_eq hm0, Option.bind_eq_bind, Option.some_bind, hloop,
      hdst, hw]
    simp
  · refine ⟨hs0, hs, ?_, ?_, ?_⟩
    · show s.buffer_count + 1 = _
      simp only [List.length_append, List.length_cons, List.length_take, List.length_drop]
      omega
    · show s.buffer_count + 1 ≤ s.buffer_max_size
      omega
    · intro j hj
      simp only [List.length_append, List.length_cons, List.length_take, List.length_drop] at hj
      show rd buf2 (slotOf s.buffer_start s.buffer_max_size j) = _
      rw [getElem?_take_cons_drop l _ p j hp]
      have hne : ∀ a b : Nat, a ≤ l.length → b ≤ l.length → a ≠ b →
          slotOf s.buffer_start s.buffer_max_size (a : Int) ≠
            slotOf s.buffer_start s.buffer_max_size (b : Int) := by
        intro a b ha hb hab h
        have := @slotOf_inj s.buffer_start s.buffer_max_size (a : Int) (b : Int) hs0 hs
          (by omega) (by omega) (by omega) (by omega) h
        omega
      by_cases h1 : j < p
      · rw [if_pos h1, hother _ (hne j p (by omega) hp (by omega)),
          hrest _ (fun i hi1 hi2 => hne j i (by omega) hi2 (by omega))]
        exact hslots j (by omega)
      · rw [if_neg h1]
        by_cases h2 : j = p
        · subst h2
          rw [if_pos rfl]
          exact hsame
        · rw [if_neg h2, hother _ (hne j p (by omega) hp h2)]
          exact hshift j (by omega) (by omega)
  · show Int.tmod (s.buffer_start + s.buffer_count + 1) s.buffer_max_size =
      slotOf s.buffer_start s.buffer_max_size (s.buffer_count + 1)
    unfold slotOf
    congr 1
    omega
  · intro j h1 h2
    exact hbig j h1 h2

/-! ## Frame facts that hold for every policy value -/

theorem admit_frame {s s1 : State} {fd st_size : Int}
    (h : request_handle_enqueue s fd st_size = some s1) :
    s1.buffer_count = s.buffer_count + 1 ∧ s1.buffer_max_size = s.buffer_max_size ∧
      s1.scheduling_algo = s.scheduling_algo ∧ s1.buffer_start = s.buffer_start := by
  unfold request_handle_enqueue at h
  simp only [Option.bind_eq_bind] at h
  split at h
  · simp only [Option.bind_eq_some, Option.some.injEq] at h
    obtain ⟨_, _, _, _, rfl⟩ := h
    exact ⟨rfl, rfl, rfl, rfl⟩
  · split at h
    · simp only [Option.bind_eq_some, Option.some.injEq] at h
      obtain ⟨_, _, _, _, _, _, _, _, _, _, rfl⟩ := h
      exact ⟨rfl, rfl, rfl, rfl⟩
    · simp only [Option.some.injEq] at h
      subst h
      exact ⟨rfl, rfl, rfl, rfl⟩

theorem remove_frame {s s1 : State} {rnd : Nat} {e : request_t}
    (h : thread_request_serve_static_dequeue s rnd = some (s1, e)) :
    s1.buffer_count = s.buffer_count - 1 ∧ s1.buffer_max_size = s.buffer_max_size ∧
      s1.scheduling_algo = s.scheduling_algo ∧ s1.buffer_end = s.buffer_end := by
  unfold thread_request_serve_static_dequeue at h
  simp only [Option.bind_eq_bind, Option.bind_eq_some] at h
  obtain ⟨_, _, _, _, h⟩ := h
  split at h
  · simp only [Option.bind_eq_some, Option.some.injEq, Prod.mk.injEq] at h
    obtain ⟨_, _, rfl, _⟩ := h
    exact ⟨rfl, rfl, rfl, rfl⟩
  · simp only [Option.bind_eq_some, Option.some.injEq, Prod.mk.injEq] at h
    obtain ⟨_, _, _, _, rfl, _⟩ := h
    exact ⟨rfl, rfl, rfl, rfl⟩

theorem exec_frame {t t1 : Trace} {op : Op} (h : exec t op = some t1) :
    t1.s.buffer_max_size = t.s.buffer_max_size ∧ t1.s.scheduling_algo = t.s.scheduling_algo := by
  cases op with
  | enqueue fd st_size =>
    simp only [exec] at h
    split at h
    · simp only [Option.some.injEq] at h
      subst h
      exact ⟨rfl, rfl⟩
    · simp only [Option.bind_eq_bind, Option.bind_eq_some, Option.some.injEq] at h
      obtain ⟨s1, hs1, rfl⟩ := h
      exact ⟨(admit_frame hs1).2.1, (admit_frame hs1).2.2.1⟩
  | dequeue rnd =>
    simp only [exec] at h
    split at h
    · simp only [Option.some.injEq] at h
      subst h
      exact ⟨rfl, rfl⟩
    · simp only [Option.bind_eq_bind, Option.bind_eq_some, Option.some.injEq] at h
      obtain ⟨⟨s1, e⟩, hs1, rfl⟩ := h
      exact ⟨(remove_frame hs1).2.1, (remove_frame hs1).2.2.1⟩

theorem exec_count {t t1 : Trace} {op : Op} (h : exec t op = some t1)
    (h0 : 0 ≤ t.s.buffer_count) (h1 : t.s.buffer_count ≤ t.s.buffer_max_size) :
    0 ≤ t1.s.buffer_count ∧ t1.s.buffer_count ≤ t1.s.buffer_max_size := by
  cases op with
  | enqueue fd st_size =>
    simp only [exec] at h
    split at h
    · simp only [Option.some.injEq] at h
      subst h
      exact ⟨h0, h1⟩
    · simp only [Option.bind_eq_bind, Option.bind_eq_some, Option.some.injEq] at h
      obtain ⟨s1, hs1, rfl⟩ := h
      obtain ⟨hc, hm, _, _⟩ := admit_frame hs1
      show 0 ≤ s1.buffer_count ∧ s1.buffer_count ≤ s1.buffer_max_size
      omega
  | dequeue rnd =>
    simp only [exec] at h
    split at h
    · simp only [Option.some.injEq] at h
      subst h
      exact ⟨h0, h1⟩
    · simp only [Option.bind_eq_bind, Option.bind_eq_some, Option.some.injEq] at h
      obtain ⟨⟨s1, e⟩, hs1, rfl⟩ := h
      obtain ⟨hc, hm, _, _⟩ := remove_frame hs1
      show 0 ≤ s1.buffer_count ∧ s1.buffer_count ≤ s1.buffer_max_size
      omega

theorem run_count : ∀ (ops : List Op) (t t1 : Trace), run t ops = some t1 →
    0 ≤ t.s.buffer_count → t.s.buffer_count ≤ t.s.buffer_max_size →
    0 ≤ t1.s.buffer_count ∧ t1.s.buffer_count ≤ t1.s.buffer_max_size ∧
      t1.s.buffer_max_size = t.s.buffer_max_size ∧
      t1.s.scheduling_algo = t.s.scheduling_algo := by
  intro ops
  induction ops with
  | nil =>
    intro t t1 h h0 h1
    simp only [run, Option.some.injEq] at h
    subst h
    exact ⟨h0, h1, rfl, rfl⟩
  | cons op ops ih =>
    intro t t1 h h0 h1
    simp only [run, Option.bind_eq_some] at h
    obtain ⟨t2, h2, h3⟩ := h
    obtain ⟨c0, c1⟩ := exec_count h2 h0 h1
    obtain ⟨f1, f2⟩ := exec_frame h2
    obtain ⟨r0, r1, r2, r3⟩ := ih t2 t1 h3 c0 c1
    exact ⟨r0, r1, by rw [r2, f1], by rw [r3, f2]⟩

/-! ## The head stays inside the circle, for every policy value -/

theorem remove_start {s s1 : State} {rnd : Nat} {e : request_t}
    (h : thread_request_serve_static_dequeue s rnd = some (s1, e)) :
    cmod (s.buffer_start + 1) s.buffer_max_size = some s1.buffer_start := by
  unfold thread_request_serve_static_dequeue at h
  simp only [Option.bind_eq_bind, Option.bind_eq_some] at h
  obtain ⟨_, _, _, _, h⟩ := h
  split at h
  · simp only [Option.bind_eq_some, Option.some.injEq, Prod.mk.injEq] at h
    obtain ⟨st, hst, rfl, _⟩ := h
    exact hst
  · simp only [Option.bind_eq_some, Option.some.injEq, Prod.mk.injEq] at h
    obtain ⟨_, _, st, hst, rfl, _⟩ := h
    exact hst

theorem exec_start {t t1 : Trace} {op : Op} (h : exec t op = some t1)
    (h0 : 0 ≤ t.s.buffer_start) (h1 : t.s.buffer_start < t.s.buffer_max_size) :
    0 ≤ t1.s.buffer_start ∧ t1.s.buffer_start < t1.s.buffer_max_size := by
  cases op with
  | enqueue fd st_size =>
    simp only [exec] at h
    split at h
    · simp only [Option.some.injEq] at h
      subst h
      exact ⟨h0, h1⟩
    · simp only [Option.bind_eq_bind, Option.bind_eq_some, Option.some.injEq] at h
      obtain ⟨s1, hs1, rfl⟩ := h
      obtain ⟨_, hm, _, hst⟩ := admit_frame hs1
      show 0 ≤ s1.buffer_start ∧ s1.buffer_start < s1.buffer_max_size
      omega
  | dequeue rnd =>
    simp only [exec] at h
    split at h
    · simp only [Option.some.injEq] at h
      subst h
      exact ⟨h0, h1⟩
    · simp only [Option.bind_eq_bind, Option.bind_eq_some, Option.some.injEq] at h
      obtain ⟨⟨s1, e⟩, hs1, rfl⟩ := h
      obtain ⟨_, hm, _, _⟩ := remove_frame hs1
      obtain ⟨_, hst⟩ := cmod_some (remove_start hs1)
      show 0 ≤ s1.buffer_start ∧ s1.buffer_start < s1.buffer_max_size
      rcases @tmod_cases (t.s.buffer_start + 1) t.s.buffer_max_size (by omega) (by omega)
        with ⟨_, h2⟩ | ⟨_, h2⟩ <;> omega

theorem run_start : ∀ (ops : List Op) (t t1 : Trace), run t ops = some t1 →
    0 ≤ t.s.buffer_start → t.s.buffer_start < t.s.buffer_max_size →
    0 ≤ t1.s.buffer_start ∧ t1.s.buffer_start < t1.s.buffer_max_size := by
  intro ops
  induction ops with
  | nil =>
    intro t t1 h h0 h1
    simp only [run, Option.some.injEq] at h
    subst h
    exact ⟨h0, h1⟩
  | cons op ops ih =>
    intro t t1 h h0 h1
    simp only [run, Option.bind_eq_some] at h
    obtain ⟨t2, h2, h3⟩ := h
    obtain ⟨c0, c1⟩ := exec_start h2 h0 h1
    exact ih t2 t1 h3 c0 c1

/-- The index the worker selects is the slot of the logical offset `pick`, which lies
below `buffer_count`. -/
theorem select_index_spec {s : State} (rnd : Nat) (hs0 : 0 ≤ s.buffer_start)
    (hs : s.buffer_start < s.buffer_max_size) (hc : 1 ≤ s.buffer_count) :
    (pick s rnd : Int) < s.buffer_count ∧
      select_index s rnd = some (slot s (pick s rnd)) := by
  have hm0 : s.buffer_max_size ≠ 0 := by omega
  have hpos : s.buffer_count ≠ 0 := by omega
  obtain ⟨n, hn⟩ : ∃ n : Nat, s.buffer_count = n := ⟨s.buffer_count.toNat, by omega⟩
  constructor
  · unfold pick
    split
    · rw [hn]
      have := Nat.mod_lt rnd (by omega : 0 < n)
      simp only [Int.toNat_ofNat]
      omega
    · simp only [Nat.cast_zero]
      omega
  · unfold select_index pick
    split
    · rw [cmod_eq hpos]
      simp only [Option.bind_eq_bind, Option.some_bind]
      rw [cmod_eq hm0, hn]
      simp only [Int.toNat_ofNat, Int.ofNat_tmod]
      rfl
    · simp [slot, slotOf_zero hs0 hs]

/-! ## The admission code writes the tail slot -/

theorem sff_loop_first {m st nf : Int} {fuel : Nat} {buf buf1 : List request_t} {i idx i1 : Int}
    (h : sff_loop m st nf fuel buf i idx = some (buf1, i1)) :
    (buf1 = buf ∧ i1 = i) ∨
      ∃ x b dst, cmod (st + i + 1) m = some dst ∧ wr buf dst x = some b := by
  cases fuel with
  | zero =>
    simp only [sff_loop, Option.bind_eq_bind, Option.bind_eq_some] at h
    obtain ⟨c, _, hc⟩ := h
    cases c
    · simp only [Bool.false_eq_true, if_false, Option.some.injEq, Prod.mk.injEq] at hc
      exact Or.inl ⟨hc.1.symm, hc.2.symm⟩
    · simp at hc
  | succ f =>
    simp only [sff_loop, Option.bind_eq_bind, Option.bind_eq_some] at h
    obtain ⟨c, _, hc⟩ := h
    cases c
    · simp only [Bool.false_eq_true, if_false, Option.some.injEq, Prod.mk.injEq] at hc
      exact Or.inl ⟨hc.1.symm, hc.2.symm⟩
    · simp only [if_true, Option.bind_eq_some] at hc
      obtain ⟨x, _, dst, hd, b, hw, _⟩ := hc
      exact Or.inr ⟨x, b, dst, hd, hw⟩

theorem admit_inbounds {s s1 : State} {fd st_size : Int}
    (h : request_handle_enqueue s fd st_size = some s1) (halgo : known_algo s.scheduling_algo)
    (hend : tail_ok s) : slot s s.buffer_count < s.request_buffer.length := by
  unfold request_handle_enqueue at h
  simp only [Option.bind_eq_bind] at h
  split at h
  · simp only [Option.bind_eq_some] at h
    obtain ⟨buf, hw, _⟩ := h
    have := (wr_some hw).2.1
    rw [hend] at this
    exact this
  · rename_i hno
    have h1 : s.scheduling_algo = 1 := by
      rcases halgo with h0 | h1 | h2
      · exact absurd (Or.inl h0) hno
      · exact h1
      · exact absurd (Or.inr h2) hno
    rw [if_pos h1] at h
    simp only [Option.bind_eq_some] at h
    obtain ⟨idx, _, ⟨buf, i1⟩, hloop, dst, hdst, buf1, hw, _⟩ := h
    have key : ∀ (b : List request_t) (x : request_t) (d : Int) (b1 : List request_t),
        cmod (s.buffer_start + (s.buffer_count - 1) + 1) s.buffer_max_size = some d →
        wr b d x = some b1 → slot s s.buffer_count < b.length := by
      intro b x d b1 hd hwr
      obtain ⟨_, hd2⟩ := cmod_some hd
      have e : s.buffer_start + (s.buffer_count - 1) + 1 = s.buffer_start + s.buffer_count := by
        omega
      rw [e] at hd2
      have := (wr_some hwr).2.1
      rw [hd2] at this
      exact this
    rcases sff_loop_first hloop with ⟨hb, hi⟩ | ⟨x, b, d, hd, hwr⟩
    · subst hb hi
      exact key _ _ _ _ hdst hw
    · exact key _ _ _ _ hd hwr

/-! ## One critical section as a step on the logical queue -/

theorem good_init (D : Nat) (bmax algo : Int) (h : 1 ≤ bmax) : Good (init D bmax algo) [] := by
  refine ⟨⟨le_refl _, by show (0 : Int) < bmax; omega, rfl, by show (0 : Int) ≤ bmax; omega, ?_⟩, ?_⟩
  · intro j hj
    simp at hj
  · show (0 : Int) = slotOf 0 bmax 0
    rw [slotOf_zero (le_refl _) (by omega)]

theorem exec_spec {t t1 : Trace} {l : List request_t} {op : Op} (hg : Good t l)
    (halgo : known_algo t.s.scheduling_algo) (h : exec t op = some t1) :
    ∃ l1, Good t1 l1 ∧ Step t l op t1 l1 := by
  obtain ⟨hrep, hend⟩ := hg
  cases op with
  | enqueue fd st_size =>
    simp only [exec] at h
    split at h
    · rename_i hfull
      simp only [Option.some.injEq] at h
      subst h
      exact ⟨l, ⟨hrep, hend⟩, ⟨rfl, rfl⟩, Or.inl ⟨hfull, rfl, rfl⟩⟩
    · rename_i hfull
      simp only [Option.bind_eq_bind, Option.bind_eq_some, Option.some.injEq] at h
      obtain ⟨s1, hs1, rfl⟩ := h
      have hgap := admit_inbounds hs1 halgo hend
      by_cases h1 : t.s.scheduling_algo = 1
      · obtain ⟨s2, p, hp, hadm, hrep2, hend2, hmax, halg, _, _, _, hbig, hsmall⟩ :=
          admit_sff_spec hrep h1 hfull hgap fd st_size
        rw [hs1] at hadm
        simp only [Option.some.injEq] at hadm
        subst hadm
        exact ⟨_, ⟨hrep2, hend2⟩, ⟨halg, hmax⟩, Or.inr
          ⟨hfull, p, hp, rfl, rfl, rfl, fun hne => absurd h1 hne,
            fun _ => ⟨hbig, hsmall⟩⟩⟩
      · have h02 : t.s.scheduling_algo = 0 ∨ t.s.scheduling_algo = 2 := by
          rcases halgo with h0 | h1' | h2
          · exact Or.inl h0
          · exact absurd h1' h1
          · exact Or.inr h2
        obtain ⟨s2, hadm, hrep2, hend2, hmax, halg, _, _, _⟩ :=
          admit_fifo_spec hrep h02 hend hfull hgap fd st_size
        rw [hs1] at hadm
        simp only [Option.some.injEq] at hadm
        subst hadm
        exact ⟨_, ⟨hrep2, hend2⟩, ⟨halg, hmax⟩, Or.inr
          ⟨hfull, l.length, le_refl _, by simp, rfl, rfl, fun _ => rfl,
            fun h => absurd h h1⟩⟩
  | dequeue rnd =>
    simp only [exec] at h
    split at h
    · rename_i hpos
      simp only [Option.some.injEq] at h
      subst h
      exact ⟨l, ⟨hrep, hend⟩, ⟨rfl, rfl⟩, Or.inl ⟨hpos, rfl, rfl⟩⟩
    · rename_i hpos
      simp only [Option.bind_eq_bind, Option.bind_eq_some, Option.some.injEq] at h
      obtain ⟨⟨s1, req⟩, hs1, rfl⟩ := h
      obtain ⟨s2, e, hr, he, _, hrem, hrep2, hmax, halg, hend2, hstart, hcnt, _⟩ :=
        remove_spec hrep hpos rnd
      rw [hs1] at hrem
      simp only [Option.some.injEq, Prod.mk.injEq] at hrem
      obtain ⟨rfl, rfl⟩ := hrem
      refine ⟨_, ⟨hrep2, ?_⟩, ⟨halg, hmax⟩, Or.inr ⟨hpos, req, he, rfl, rfl, rfl⟩⟩
      · show s1.buffer_end = slotOf s1.buffer_start s1.buffer_max_size s1.buffer_count
        rw [hend2, hstart, hmax, hcnt, hend]
        have hc := hrep.count_eq
        have := @slotOf_succ t.s.buffer_start t.s.buffer_max_size (t.s.buffer_count - 1)
          hrep.start_nonneg hrep.start_lt (by omega) (by have := hrep.count_le; omega)
        simp only [Int.sub_add_cancel] at this
        exact this.symm

theorem run_invariant (P : Trace → List request_t → Prop)
    (hP : ∀ t l op t1 l1, Good t l → P t l → Good t1 l1 → Step t l op t1 l1 → P t1 l1) :
    ∀ (ops : List Op) (t : Trace) (l : List request_t) (t1 : Trace),
      Good t l → known_algo t.s.scheduling_algo → P t l → run t ops = some t1 →
      ∃ l1, Good t1 l1 ∧ P t1 l1 := by
  intro ops
  induction ops with
  | nil =>
    intro t l t1 hg _ hp h
    simp only [run, Option.some.injEq] at h
    subst h
    exact ⟨l, hg, hp⟩
  | cons op ops ih =>
    intro t l t1 hg halgo hp h
    simp only [run, Option.bind_eq_some] at h
    obtain ⟨t2, h2, h3⟩ := h
    obtain ⟨l2, hg2, hstep⟩ := exec_spec hg halgo h2
    have hfr : t2.s.scheduling_algo = t.s.scheduling_algo := (exec_frame h2).2
    exact ih t2 l2 t1 hg2 (by rw [hfr]; exact halgo) (hP t l op t2 l2 hg hp hg2 hstep) h3

/-! ## No undefined behaviour when the capacity fits the array -/

theorem exec_total {t : Trace} {l : List request_t} (op : Op) (hg : Good t l)
    (halgo : known_algo t.s.scheduling_algo)
    (hfit : t.s.buffer_max_size ≤ t.s.request_buffer.length) :
    ∃ t1, exec t op = some t1 ∧
      t1.s.buffer_max_size ≤ t1.s.request_buffer.length := by
  obtain ⟨hrep, hend⟩ := hg
  cases op with
  | enqueue fd st_size =>
    by_cases hfull : t.s.buffer_count = t.s.buffer_max_size
    · exact ⟨t, by simp [exec, hfull], hfit⟩
    · have hc := hrep.count_eq
      have hgap : slot t.s t.s.buffer_count < t.s.request_buffer.length := by
        have := (@slotOf_range t.s.buffer_start t.s.buffer_max_size t.s.buffer_count
          hrep.start_nonneg hrep.start_lt (by omega) hrep.count_le).2
        exact lt_of_lt_of_le this hfit
      by_cases h1 : t.s.scheduling_algo = 1
      · obtain ⟨s1, _, _, hadm, _, _, hmax, _, _, _, hlen, _⟩ :=
          admit_sff_spec hrep h1 hfull hgap fd st_size
        refine ⟨{ s := s1, admitted := t.admitted ++ [new_request fd st_size],
                  removed := t.removed }, by simp [exec, hfull, hadm], ?_⟩
        show s1.buffer_max_size ≤ s1.request_buffer.length
        rw [hmax, hlen]
        exact hfit
      · have h02 : t.s.scheduling_algo = 0 ∨ t.s.scheduling_algo = 2 := by
          rcases halgo with h0 | h1' | h2
          · exact Or.inl h0
          · exact absurd h1' h1
          · exact Or.inr h2
        obtain ⟨s1, hadm, _, _, hmax, _, _, _, hlen⟩ :=
          admit_fifo_spec hrep h02 hend hfull hgap fd st_size
        refine ⟨{ s := s1, admitted := t.admitted ++ [new_request fd st_size],
                  removed := t.removed }, by simp [exec, hfull, hadm], ?_⟩
        show s1.buffer_max_size ≤ s1.request_buffer.length
        rw [hmax, hlen]
        exact hfit
  | dequeue rnd =>
    by_cases hpos : t.s.buffer_count = 0
    · exact ⟨t, by simp [exec, hpos], hfit⟩
    · obtain ⟨s1, e, _, _, _, hrem, _, hmax, _, _, _, _, hlen⟩ := remove_spec hrep hpos rnd
      refine ⟨{ s := s1, admitted := t.admitted, removed := t.removed ++ [e] },
        by simp [exec, hpos, hrem], ?_⟩
      show s1.buffer_max_size ≤ s1.request_buffer.length
      rw [hmax, hlen]
      exact hfit

/-- Under the policies 0, 1, 2 and with `buffer_max_size <= DEFAULT_BUFFER_SIZE`, every
sequence of critical sections runs without undefined behaviour. -/
theorem run_total (D : Nat) (bmax algo : Int) (hmax : 1 ≤ bmax) (hfit : bmax ≤ D)
    (halgo : known_algo algo) (ops : List Op) :
    ∃ t, run (init D bmax algo) ops = some t := by
  have key : ∀ (ops : List Op) (t : Trace) (l : List request_t), Good t l →
      known_algo t.s.scheduling_algo → t.s.buffer_max_size ≤ t.s.request_buffer.length →
      ∃ t1, run t ops = some t1 := by
    intro ops
    induction ops with
    | nil =>
      intro t _ _ _ _
      exact ⟨t, rfl⟩
    | cons op ops ih =>
      intro t l hg hk hf
      obtain ⟨t2, h2, hf2⟩ := exec_total op hg hk hf
      obtain ⟨l2, hg2, _⟩ := exec_spec hg hk h2
      obtain ⟨t1, h1⟩ := ih t2 l2 hg2 (by rw [(exec_frame h2).2]; exact hk) hf2
      exact ⟨t1, by simp only [run, h2, Option.some_bind]; exact h1⟩
  exact key ops (init D bmax algo) [] (good_init D bmax algo hmax) halgo
    (by simpa [init] using hfit)

/-! ## C1: capacity invariant -/

/-- C1. Capacity invariant: from the empty queue with `buffer_max_size >= 1`, for every
value of the policy and every finite sequence of admissions and extractions (each one
running its insertion or extraction only once its wait loop has exited), every reached
state satisfies `0 <= buffer_count <= buffer_max_size`, and the capacity is unchanged. -/
theorem capacity_invariant (D : Nat) (bmax algo : Int) (ops : List Op) (t : Trace)
    (hmax : 1 ≤ bmax) (hrun : run (init D bmax algo) ops = some t) :
    0 ≤ t.s.buffer_count ∧ t.s.buffer_count ≤ t.s.buffer_max_size ∧
      t.s.buffer_max_size = bmax := by
  obtain ⟨h0, h1, h2, _⟩ := run_count ops (init D bmax algo) t hrun (le_refl _)
    (by show (0 : Int) ≤ bmax; omega)
  exact ⟨h0, h1, h2⟩

/-- Witness of C1: capacity 2 under policy 1; the third admission waits, the queue is full. -/
theorem capacity_invariant_witness :
    run (init 2 2 1) [Op.enqueue 7 50, Op.enqueue 8 10, Op.enqueue 9 30] = some full2 ∧
      (0 ≤ full2.s.buffer_count ∧ full2.s.buffer_count ≤ full2.s.buffer_max_size ∧
        full2.s.buffer_max_size = 2) :=
  ⟨by decide, capacity_invariant 2 2 1 [Op.enqueue 7 50, Op.enqueue 8 10, Op.enqueue 9 30] full2
    (by decide) (by decide)⟩

/-! ## C2: FIFO order -/

theorem fifo_step (t : Trace) (l : List request_t) (op : Op) (t1 : Trace)
    (l1 : List request_t)
    (_ : Good t l) (hp : t.s.scheduling_algo = 0 ∧ t.admitted = t.removed ++ l)
    (_ : Good t1 l1) (hstep : Step t l op t1 l1) :
    t1.s.scheduling_algo = 0 ∧ t1.admitted = t1.removed ++ l1 := by
  obtain ⟨halgo, hlog⟩ := hp
  cases op with
  | enqueue fd sz =>
    obtain ⟨⟨ha, _⟩, hcase⟩ := hstep
    refine ⟨by rw [ha, halgo], ?_⟩
    rcases hcase with ⟨_, rfl, rfl⟩ | ⟨_, p, _, rfl, hadm, hrem, hpos, _⟩
    · exact hlog
    · have hp : p = l.length := hpos (by omega)
      subst hp
      rw [hadm, hrem, hlog]
      simp
  | dequeue rnd =>
    obtain ⟨⟨ha, _⟩, hcase⟩ := hstep
    refine ⟨by rw [ha, halgo], ?_⟩
    rcases hcase with ⟨_, rfl, rfl⟩ | ⟨_, e, he, rfl, hrem, hadm⟩
    · exact hlog
    · have hr0 : pick t.s rnd = 0 := by simp [pick, halgo]
      rw [hr0] at he ⊢
      rw [hadm, hrem, hlog]
      cases l with
      | nil => simp at he
      | cons x xs =>
        simp only [List.getElem?_cons_zero, Option.some.injEq] at he
        subst he
        simp

/-- C2. FIFO order: under policy 0, from the empty queue, for every capacity
`buffer_max_size >= 1` and every sequence of admissions and extractions, the entries
returned by the extractions are exactly the prefix, of the same length, of the entries
admitted, in admission order; the entries not yet returned are the occupied region. -/
theorem fifo_order (D : Nat) (bmax : Int) (ops : List Op) (t : Trace)
    (hmax : 1 ≤ bmax) (hrun : run (init D bmax 0) ops = some t) :
    t.removed <+: t.admitted ∧ t.removed = t.admitted.take t.removed.length ∧
      region t.s = some (t.admitted.drop t.removed.length) := by
  obtain ⟨l, hg, _, hlog⟩ := run_invariant
    (fun t l => t.s.scheduling_algo = 0 ∧ t.admitted = t.removed ++ l) fifo_step ops
    (init D bmax 0) [] t (good_init D bmax 0 hmax) (Or.inl rfl) ⟨rfl, rfl⟩ hrun
  refine ⟨⟨l, hlog.symm⟩, ?_, ?_⟩
  · rw [hlog]
    simp
  · rw [hg.1.region_eq, hlog]
    simp

/-- Witness of C2: capacity 2; admit A, B; a third admission waits; extract A; admit C;
extract B; extract C. -/
theorem fifo_order_witness :
    run (init 2 2 0) [Op.enqueue 7 100, Op.enqueue 8 200, Op.enqueue 9 300, Op.dequeue 0,
        Op.enqueue 9 300, Op.dequeue 0, Op.dequeue 0] = some fifo_demo ∧
      fifo_demo.removed = [⟨7, 100⟩, ⟨8, 200⟩, ⟨9, 300⟩] ∧
      (fifo_demo.removed <+: fifo_demo.admitted ∧
        fifo_demo.removed = fifo_demo.admitted.take fifo_demo.removed.length ∧
        region fifo_demo.s = some (fifo_demo.admitted.drop fifo_demo.removed.length)) :=
  ⟨by decide, rfl, fifo_order 2 2 [Op.enqueue 7 100, Op.enqueue 8 200, Op.enqueue 9 300,
    Op.dequeue 0, Op.enqueue 9 300, Op.dequeue 0, Op.dequeue 0] fifo_demo (by decide)
    (by decide)⟩

/-! ## C3, C4: shortest file first keeps the region sorted and serves the smallest -/

theorem mem_take_index {l : List request_t} {p : Nat} {a : request_t} (h : a ∈ l.take p) :
    ∃ i, i < p ∧ l[i]? = some a := by
  obtain ⟨i, hi⟩ := List.mem_iff_getElem?.mp h
  rw [List.getElem?_take] at hi
  split at hi
  · exact ⟨i, by assumption, hi⟩
  · simp at hi

theorem mem_drop_index {l : List request_t} {p : Nat} {a : request_t} (h : a ∈ l.drop p) :
    ∃ i, p ≤ i ∧ i < l.length ∧ l[i]? = some a := by
  obtain ⟨i, hi⟩ := List.mem_iff_getElem?.mp h
  rw [List.getElem?_drop] at hi
  have := (List.getElem?_eq_some.mp hi).1
  exact ⟨p + i, by omega, this, hi⟩

theorem sorted_index {l : List request_t} (hs : sorted_by_size l) {i j : Nat} {a b : request_t}
    (hij : i ≤ j) (ha : l[i]? = some a) (hb : l[j]? = some b) : a.filesize ≤ b.filesize := by
  obtain ⟨hi, ha1⟩ := List.getElem?_eq_some.mp ha
  obtain ⟨hj, hb1⟩ := List.getElem?_eq_some.mp hb
  by_cases h : i = j
  · subst h
    rw [ha1] at hb1
    subst hb1
    exact le_refl _
  · have := List.pairwise_iff_getElem.mp hs i j hi hj (by omega)
    rw [ha1, hb1] at this
    exact this

/-- Where the backward scan stops, every entry in front is at most the new size, every
entry behind is larger, and the region with the new entry stays sorted. -/
theorem sorted_insert {l : List request_t} (e : request_t) {p : Nat} (hp : p ≤ l.length)
    (hs : sorted_by_size l)
    (hbig : ∀ j : Nat, p ≤ j → j < l.length → ∃ y, l[j]? = some y ∧ e.filesize < y.filesize)
    (hsmall : ∀ y, 1 ≤ p → l[p - 1]? = some y → y.filesize ≤ e.filesize) :
    (∀ a ∈ l.take p, a.filesize ≤ e.filesize) ∧ (∀ b ∈ l.drop p, e.filesize < b.filesize) ∧
      sorted_by_size (l.take p ++ e :: l.drop p) := by
  have hfront : ∀ a ∈ l.take p, a.filesize ≤ e.filesize := by
    intro a ha
    obtain ⟨i, hip, hia⟩ := mem_take_index ha
    have hil := (List.getElem?_eq_some.mp hia).1
    obtain ⟨y, hy⟩ : ∃ y, l[p - 1]? = some y :=
      ⟨l[p - 1], List.getElem?_eq_getElem (by omega)⟩
    have h1 := sorted_index hs (by omega : i ≤ p - 1) hia hy
    have h2 := hsmall y (by omega) hy
    omega
  have hback : ∀ b ∈ l.drop p, e.filesize < b.filesize := by
    intro b hb
    obtain ⟨i, hpi, hil, hib⟩ := mem_drop_index hb
    obtain ⟨y, hy, hlt⟩ := hbig i hpi hil
    rw [hib] at hy
    simp only [Option.some.injEq] at hy
    subst hy
    exact hlt
  refine ⟨hfront, hback, ?_⟩
  have hsplit : sorted_by_size (l.take p ++ l.drop p) := by
    rw [List.take_append_drop]
    exact hs
  unfold sorted_by_size at hsplit ⊢
  rw [List.pairwise_append] at hsplit ⊢
  obtain ⟨h1, h2, h3⟩ := hsplit
  refine ⟨h1, List.pairwise_cons.mpr ⟨fun b hb => le_of_lt (hback b hb), h2⟩, ?_⟩
  intro a ha b hb
  rcases List.mem_cons.mp hb with rfl | hb
  · exact hfront a ha
  · exact h3 a ha b hb

theorem sff_step (t : Trace) (l : List request_t) (op : Op) (t1 : Trace)
    (l1 : List request_t)
    (_ : Good t l) (hp : t.s.scheduling_algo = 1 ∧ sorted_by_size l)
    (_ : Good t1 l1) (hstep : Step t l op t1 l1) :
    t1.s.scheduling_algo = 1 ∧ sorted_by_size l1 := by
  obtain ⟨halgo, hs⟩ := hp
  cases op with
  | enqueue fd sz =>
    obtain ⟨⟨ha, _⟩, hcase⟩ := hstep
    refine ⟨by rw [ha, halgo], ?_⟩
    rcases hcase with ⟨_, rfl, rfl⟩ | ⟨_, p, hpl, rfl, _, _, _, hscan⟩
    · exact hs
    · obtain ⟨hbig, hsmall⟩ := hscan halgo
      exact (sorted_insert (new_request fd sz) hpl hs hbig hsmall).2.2
  | dequeue rnd =>
    obtain ⟨⟨ha, _⟩, hcase⟩ := hstep
    refine ⟨by rw [ha, halgo], ?_⟩
    rcases hcase with ⟨_, rfl, rfl⟩ | ⟨_, e, _, rfl, _, _⟩
    · exact hs
    · exact List.Pairwise.sublist (List.eraseIdx_sublist l _) hs

theorem sff_reach (D : Nat) (bmax : Int) (ops : List Op) (t : Trace)
    (hmax : 1 ≤ bmax) (hrun : run (init D bmax 1) ops = some t) :
    ∃ l, Good t l ∧ t.s.scheduling_algo = 1 ∧ sorted_by_size l :=
  run_invariant (fun t l => t.s.scheduling_algo = 1 ∧ sorted_by_size l) sff_step ops
    (init D bmax 1) [] t (good_init D bmax 1 hmax) (Or.inr (Or.inl rfl))
    ⟨rfl, List.Pairwise.nil⟩ hrun

/-- C3. Shortest-first sortedness: under policy 1, from the empty queue, after every
sequence of admissions and extractions the occupied region read head-to-tail (slots
`(buffer_start + j) % buffer_max_size`, `j < buffer_count`) is non-decreasing in
`filesize`, also when the region wraps. -/
theorem sff_sorted (D : Nat) (bmax : Int) (ops : List Op) (t : Trace)
    (hmax : 1 ≤ bmax) (hrun : run (init D bmax 1) ops = some t) :
    ∃ l, region t.s = some l ∧ sorted_by_size l := by
  obtain ⟨l, hg, _, hs⟩ := sff_reach D bmax ops t hmax hrun
  exact ⟨l, hg.1.region_eq, hs⟩

/-- Witness of C3: capacity 3, admitting sizes 50, 10, 30 yields the order 10, 30, 50. -/
theorem sff_sorted_witness :
    run (init 3 3 1) [Op.enqueue 7 50, Op.enqueue 8 10, Op.enqueue 9 30] = some sff_demo ∧
      region sff_demo.s = some [⟨8, 10⟩, ⟨9, 30⟩, ⟨7, 50⟩] ∧
      ∃ l, region sff_demo.s = some l ∧ sorted_by_size l :=
  ⟨by decide, by decide,
    sff_sorted 3 3 [Op.enqueue 7 50, Op.enqueue 8 10, Op.enqueue 9 30] sff_demo (by decide)
      (by decide)⟩

/-- C4. Shortest-first serves the smallest pending request: under policy 1, in every state
reached from the empty queue with `buffer_count >= 1`, the extraction returns an entry
whose `filesize` is at most the `filesize` of every entry that remains in the occupied
region afterwards. -/
theorem sff_serves_smallest (D : Nat) (bmax : Int) (ops : List Op) (t : Trace) (rnd : Nat)
    (hmax : 1 ≤ bmax) (hrun : run (init D bmax 1) ops = some t)
    (hcount : 1 ≤ t.s.buffer_count) :
    ∃ s1 e l1, thread_request_serve_static_dequeue t.s rnd = some (s1, e) ∧
      region s1 = some l1 ∧ ∀ x ∈ l1, e.filesize ≤ x.filesize := by
  obtain ⟨l, hg, halgo, hs⟩ := sff_reach D bmax ops t hmax hrun
  obtain ⟨s1, e, _, he, _, hrem, hrep1, _⟩ := remove_spec hg.1 (by omega) rnd
  have hpick : pick t.s rnd = 0 := by simp [pick, halgo]
  rw [hpick] at he hrep1
  refine ⟨s1, e, _, hrem, hrep1.region_eq, ?_⟩
  intro x hx
  obtain ⟨i, hi⟩ := List.mem_iff_getElem?.mp hx
  rw [List.getElem?_eraseIdx_of_ge _ _ _ (Nat.zero_le i)] at hi
  exact sorted_index hs (Nat.zero_le _) he hi

/-- Witness of C4: after admitting sizes 50, 10, 30 the extraction returns size 10 and
leaves 30, 50. -/
theorem sff_serves_smallest_witness :
    thread_request_serve_static_dequeue sff_demo.s 0 = some (sff_demo_next, ⟨8, 10⟩) ∧
      region sff_demo_next = some [⟨9, 30⟩, ⟨7, 50⟩] ∧
      ∃ s1 e l1, thread_request_serve_static_dequeue sff_demo.s 0 = some (s1, e) ∧
        region s1 = some l1 ∧ ∀ x ∈ l1, e.filesize ≤ x.filesize :=
  ⟨by decide, by decide,
    sff_serves_smallest 3 3 [Op.enqueue 7 50, Op.enqueue 8 10, Op.enqueue 9 30] sff_demo 0
      (by decide) (by decide) (by decide)⟩

/-! ## C5: random coverage -/

theorem perm_cons_eraseIdx {l : List request_t} {r : Nat} {e : request_t}
    (h : l[r]? = some e) : List.Perm l (e :: l.eraseIdx r) := by
  obtain ⟨hr, he⟩ := List.getElem?_eq_some.mp h
  have hl : l = l.take r ++ e :: l.drop (r + 1) := by
    rw [← he, ← List.drop_eq_getElem_cons hr, List.take_append_drop]
  rw [List.eraseIdx_eq_take_drop_succ]
  nth_rewrite 1 [hl]
  exact List.perm_middle

/-- Admissions into a queue with enough room all insert at the tail (policy 0 or 2). -/
theorem run_enqueues : ∀ (es : List (Int × Int)) (t : Trace) (l : List request_t) (t1 : Trace),
    Good t l → t.s.scheduling_algo = 2 →
    (l.length : Int) + es.length ≤ t.s.buffer_max_size →
    run t (es.map (fun e => Op.enqueue e.1 e.2)) = some t1 →
    Good t1 (l ++ es.map (fun e => new_request e.1 e.2)) ∧
      t1.admitted = t.admitted ++ es.map (fun e => new_request e.1 e.2) ∧
      t1.removed = t.removed ∧ t1.s.scheduling_algo = 2 := by
  intro es
  induction es with
  | nil =>
    intro t l t1 hg halgo _ h
    simp only [List.map_nil, run, Option.some.injEq] at h
    subst h
    simpa using ⟨hg, halgo⟩
  | cons x xs ih =>
    intro t l t1 hg halgo hroom h
    simp only [List.map_cons, run, Option.bind_eq_some] at h
    obtain ⟨t2, h2, h3⟩ := h
    obtain ⟨l2, hg2, ⟨ha, hm⟩, hcase⟩ := exec_spec hg (Or.inr (Or.inr halgo)) h2
    have hcnt := hg.1.count_eq
    simp only [List.length_cons, Nat.cast_add, Nat.cast_one] at hroom
    rcases hcase with ⟨hfull, _, _⟩ | ⟨_, p, _, rfl, hadm, hrem, hpos, _⟩
    · omega
    · have hp : p = l.length := hpos (by omega)
      subst hp
      simp only [List.take_length, List.drop_length] at hg2
      obtain ⟨r1, r2, r3, r4⟩ := ih t2 _ t1 hg2 (by rw [ha, halgo])
        (by rw [hm]; simp only [List.length_append, List.length_singleton, Nat.cast_add,
              Nat.cast_one]; omega) h3
      refine ⟨by simpa using r1, ?_, by rw [r3, hrem], r4⟩
      rw [r2, hadm]
      simp

/-- As many extractions as there are entries empty the queue and return a permutation
of it; none of them fails. -/
theorem run_dequeues : ∀ (rnds : List Nat) (t : Trace) (l : List request_t),
    Good t l → known_algo t.s.scheduling_algo → rnds.length = l.length →
    ∃ t1, run t (rnds.map Op.dequeue) = some t1 ∧ Good t1 [] ∧
      List.Perm t1.removed (t.removed ++ l) ∧ t1.admitted = t.admitted := by
  intro rnds
  induction rnds with
  | nil =>
    intro t l hg _ hlen
    have hl : l = [] := List.length_eq_zero.mp (by simpa using hlen.symm)
    subst hl
    exact ⟨t, rfl, hg, by simp, rfl⟩
  | cons rnd rs ih =>
    intro t l hg halgo hlen
    have hcnt := hg.1.count_eq
    simp only [List.length_cons] at hlen
    have hpos : t.s.buffer_count ≠ 0 := by omega
    obtain ⟨s1, e, hr, _, _, hrem, _⟩ := remove_spec hg.1 hpos rnd
    have hexec : exec t (Op.dequeue rnd) =
        some { s := s1, admitted := t.admitted, removed := t.removed ++ [e] } := by
      simp [exec, hpos, hrem]
    obtain ⟨l2, hg2, ⟨ha, _⟩, hcase⟩ := exec_spec hg halgo hexec
    rcases hcase with ⟨h0, _, _⟩ | ⟨_, e2, he2, rfl, hrem2, hadm2⟩
    · exact absurd h0 hpos
    · obtain ⟨t1, hrun, hg1, hperm, hadm⟩ := ih _ _ hg2 (by rw [ha]; exact halgo)
        (by rw [List.length_eraseIdx_of_lt hr]; omega)
      refine ⟨t1, ?_, hg1, ?_, by rw [hadm, hadm2]⟩
      · simp only [List.map_cons, run, hexec, Option.some_bind]
        exact hrun
      · refine hperm.trans ?_
        rw [hrem2, List.append_assoc]
        exact List.Perm.append_left _ (perm_cons_eraseIdx he2).symm

/-- C5. Random coverage: under policy 2, for every `k` with `1 <= k <= buffer_max_size`,
every list of `k` entries admitted into the empty queue and every sequence of `k` values
of `rand()`, the `k` following extractions all return, the entries they return are a
permutation of the `k` admitted entries, and they leave `buffer_count = 0`. -/
theorem random_coverage (D : Nat) (bmax : Int) (es : List (Int × Int)) (rnds : List Nat)
    (t1 : Trace) (hk1 : 1 ≤ es.length) (hk : (es.length : Int) ≤ bmax)
    (hr : rnds.length = es.length)
    (hadm : run (init D bmax 2) (es.map (fun e => Op.enqueue e.1 e.2)) = some t1) :
    t1.admitted = es.map (fun e => new_request e.1 e.2) ∧
      ∃ t2, run t1 (rnds.map Op.dequeue) = some t2 ∧
        List.Perm t2.removed (es.map (fun e => new_request e.1 e.2)) ∧
        t2.removed.length = es.length ∧ t2.s.buffer_count = 0 := by
  have hmax : 1 ≤ bmax := by omega
  obtain ⟨hg1, hadm1, hrem1, halgo1⟩ := run_enqueues es (init D bmax 2) [] t1
    (good_init D bmax 2 hmax) rfl (by simpa using hk) hadm
  simp only [List.nil_append] at hg1
  have hadm2 : t1.admitted = es.map (fun e => new_request e.1 e.2) := by
    rw [hadm1]
    rfl
  have hrem2 : t1.removed = [] := hrem1
  obtain ⟨t2, hrun, hg2, hperm, _⟩ := run_dequeues rnds t1 _ hg1 (Or.inr (Or.inr halgo1))
    (by simpa using hr)
  rw [hrem2, List.nil_append] at hperm
  refine ⟨hadm2, t2, hrun, hperm, ?_, ?_⟩
  · rw [hperm.length_eq]
    simp
  · have := hg2.1.count_eq
    simpa using this

/-- Witness of C5: capacity 3, three entries, `rand()` values 4, 3, 5: the extractions
return the second, the third and the first entry. -/
theorem random_coverage_witness :
    run (init 3 3 2) ([((7 : Int), (50 : Int)), (8, 10), (9, 30)].map
        (fun e => Op.enqueue e.1 e.2)) = some random_demo ∧
      run random_demo ([4, 3, 5].map Op.dequeue) = some random_demo_done ∧
      (random_demo.admitted =
          [((7 : Int), (50 : Int)), (8, 10), (9, 30)].map (fun e => new_request e.1 e.2) ∧
        ∃ t2, run random_demo ([4, 3, 5].map Op.dequeue) = some t2 ∧
          List.Perm t2.removed
            ([((7 : Int), (50 : Int)), (8, 10), (9, 30)].map (fun e => new_request e.1 e.2)) ∧
          t2.removed.length = [((7 : Int), (50 : Int)), (8, 10), (9, 30)].length ∧
          t2.s.buffer_count = 0) :=
  ⟨by decide, by decide,
    random_coverage 3 3 [(7, 50), (8, 10), (9, 30)] [4, 3, 5] random_demo (by decide)
      (by decide) (by decide) (by decide)⟩

/-! ## C6: extraction from an arbitrary position -/

/-- C6. Removal from an arbitrary position preserves order: for every state with
`0 <= buffer_start < buffer_max_size` and `1 <= buffer_count <= buffer_max_size` whose
occupied region `l` lies inside the array, and every value of `rand()`, with `r` the
logical offset `pick` (`rand() % buffer_count` under policy 2, `0` otherwise): `r` is below
`buffer_count`, the worker selects the physical index `(buffer_start + r) % buffer_max_size`,
the extraction returns the entry at logical position `r`, and afterwards the occupied
region is `l` with exactly position `r` erased, whether or not the region wraps. Under
policy 2 every offset below `buffer_count` is picked by some value of `rand()`. -/
theorem remove_preserves_order (s : State) (l : List request_t) (rnd : Nat)
    (hs0 : 0 ≤ s.buffer_start) (hs1 : s.buffer_start < s.buffer_max_size)
    (hc1 : 1 ≤ s.buffer_count) (hc2 : s.buffer_count ≤ s.buffer_max_size)
    (hreg : region s = some l) :
    (pick s rnd : Int) < s.buffer_count ∧
      select_index s rnd =
        some (Int.tmod (s.buffer_start + (pick s rnd : Int)) s.buffer_max_size) ∧
      (∃ s1 e, l[pick s rnd]? = some e ∧
        thread_request_serve_static_dequeue s rnd = some (s1, e) ∧
        region s1 = some (l.eraseIdx (pick s rnd)) ∧
        s1.buffer_count = s.buffer_count - 1 ∧
        s1.buffer_start = Int.tmod (s.buffer_start + 1) s.buffer_max_size) ∧
      (s.scheduling_algo = 2 → ∀ r : Nat, (r : Int) < s.buffer_count → pick s r = r) := by
  have hrep : Rep s l := Rep.of_region hreg hs0 hs1 (by omega) hc2
  obtain ⟨s1, e, hr, he, hsel, hrem, hrep1, _, _, _, hstart, hcnt, _⟩ :=
    remove_spec hrep (by omega) rnd
  refine ⟨?_, hsel, ⟨s1, e, he, hrem, hrep1.region_eq, hcnt, hstart⟩, ?_⟩
  · have := hrep.count_eq
    omega
  · intro halgo r hr2
    unfold pick
    rw [if_pos halgo]
    exact Nat.mod_eq_of_lt (by omega)

/-- Witness of C6: capacity 4, region in slots 3, 0, 1; `rand() = 4` picks offset 1, which
is physical slot 0; the entry of slot 3 moves to slot 0 and the head advances to 0. -/
theorem remove_preserves_order_witness :
    region wrapped = some [⟨1, 10⟩, ⟨2, 20⟩, ⟨3, 30⟩] ∧ pick wrapped 4 = 1 ∧
      thread_request_serve_static_dequeue wrapped 4 = some (wrapped_next, ⟨2, 20⟩) ∧
      region wrapped_next = some [⟨1, 10⟩, ⟨3, 30⟩] ∧
      (pick wrapped 4 : Int) < wrapped.buffer_count :=
  ⟨by decide, by decide, by decide, by decide,
    (remove_preserves_order wrapped [⟨1, 10⟩, ⟨2, 20⟩, ⟨3, 30⟩] 4 (by decide) (by decide)
      (by decide) (by decide) (by decide)).1⟩

/-! ## C7: admission appends at the logical tail -/

/-- C7. Append at the logical tail: under policy 0 or 2, in every state reached from the
empty queue, `buffer_end` is the physical slot `(buffer_start + buffer_count) %
buffer_max_size`, also when the queue is full; an admission into a queue that is not full
returns whenever that slot is inside the array, it writes the new entry to
`request_buffer[buffer_end]`, and the occupied region afterwards is the old region with the
new entry appended last. -/
theorem append_at_tail (D : Nat) (bmax algo : Int) (ops : List Op) (t : Trace)
    (fd st_size : Int) (hmax : 1 ≤ bmax) (halgo : algo = 0 ∨ algo = 2)
    (hrun : run (init D bmax algo) ops = some t) :
    t.s.buffer_end = Int.tmod (t.s.buffer_start + t.s.buffer_count) t.s.buffer_max_size ∧
      (t.s.buffer_count ≠ t.s.buffer_max_size →
        (t.s.buffer_end < t.s.request_buffer.length →
          ∃ s1, request_handle_enqueue t.s fd st_size = some s1) ∧
        ∀ s1, request_handle_enqueue t.s fd st_size = some s1 →
          rd s1.request_buffer t.s.buffer_end = some (new_request fd st_size) ∧
          ∃ l, region t.s = some l ∧ region s1 = some (l ++ [new_request fd st_size])) := by
  have hk : known_algo algo := by
    rcases halgo with h | h
    · exact Or.inl h
    · exact Or.inr (Or.inr h)
  obtain ⟨l, hg, _⟩ := run_invariant (fun _ _ => True) (fun _ _ _ _ _ _ _ _ _ => trivial) ops
    (init D bmax algo) [] t (good_init D bmax algo hmax) hk trivial hrun
  have hfr := (run_count ops (init D bmax algo) t hrun (le_refl _)
    (by show (0 : Int) ≤ bmax; omega)).2.2.2
  have halgo2 : t.s.scheduling_algo = 0 ∨ t.s.scheduling_algo = 2 := by
    rw [hfr]
    exact halgo
  have hend : t.s.buffer_end = slot t.s t.s.buffer_count := hg.2
  refine ⟨hend, fun hroom => ?_⟩
  have key : ∀ s1, request_handle_enqueue t.s fd st_size = some s1 →
      rd s1.request_buffer t.s.buffer_end = some (new_request fd st_size) ∧
        ∃ l, region t.s = some l ∧ region s1 = some (l ++ [new_request fd st_size]) := by
    intro s1 hs1
    have hgap := admit_inbounds hs1 (by rw [hfr]; exact hk) hg.2
    obtain ⟨s2, hadm, hrep2, _, _, _, hst, hcnt, _⟩ :=
      admit_fifo_spec hg.1 halgo2 hend hroom hgap fd st_size
    rw [hs1] at hadm
    simp only [Option.some.injEq] at hadm
    subst hadm
    refine ⟨?_, l, hg.1.region_eq, hrep2.region_eq⟩
    have h1 := hrep2.slots l.length (by simp)
    have h2 : slot s1 (l.length : Int) = t.s.buffer_end := by
      rw [hend, ← hg.1.count_eq]
      show slotOf s1.buffer_start s1.buffer_max_size _ = slotOf _ _ _
      rw [hst, (admit_frame hs1).2.1]
    rw [h2] at h1
    rw [h1]
    simp
  refine ⟨?_, key⟩
  intro hin
  rw [hend] at hin
  obtain ⟨s1, hadm, _⟩ := admit_fifo_spec hg.1 halgo2 hend hroom hin fd st_size
  exact ⟨s1, hadm⟩

/-- Witness of C7: capacity 2 after two admissions and one extraction: the head is slot 1
and the tail slot is `(1 + 1) % 2 = 0`. -/
theorem append_at_tail_witness :
    run (init 2 2 0) [Op.enqueue 7 100, Op.enqueue 8 200, Op.dequeue 0] = some tail_demo ∧
      tail_demo.s.buffer_end = 0 ∧ region tail_demo.s = some [⟨8, 200⟩] ∧
      (request_handle_enqueue tail_demo.s 9 300).bind region =
        some [⟨8, 200⟩, ⟨9, 300⟩] ∧
      tail_demo.s.buffer_end =
        Int.tmod (tail_demo.s.buffer_start + tail_demo.s.buffer_count)
          tail_demo.s.buffer_max_size :=
  ⟨by decide, by decide, by decide, by decide,
    (append_at_tail 2 2 0 [Op.enqueue 7 100, Op.enqueue 8 200, Op.dequeue 0] tail_demo 9 300
      (by decide) (by decide) (by decide)).1⟩

/-! ## C8: the shortest-file-first tie-break is stable -/

theorem scan_back {l : List request_t} {nf : Int} {p : Nat}
    (hbig : ∀ j : Nat, p ≤ j → j < l.length → ∃ y, l[j]? = some y ∧ nf < y.filesize) :
    ∀ b ∈ l.drop p, nf < b.filesize := by
  intro b hb
  obtain ⟨i, hpi, hil, hib⟩ := mem_drop_index hb
  obtain ⟨y, hy, hlt⟩ := hbig i hpi hil
  rw [hib] at hy
  simp only [Option.some.injEq] at hy
  subst hy
  exact hlt

theorem of_size_insert (z : Int) (l : List request_t) (e : request_t) (p : Nat)
    (hback : ∀ b ∈ l.drop p, e.filesize < b.filesize) :
    of_size z (l.take p ++ e :: l.drop p) = of_size z l ++ of_size z [e] := by
  have hl : of_size z l = of_size z (l.take p) ++ of_size z (l.drop p) := by
    unfold of_size
    rw [← List.filter_append, List.take_append_drop]
  by_cases hz : e.filesize = z
  · have hnil : of_size z (l.drop p) = [] := by
      unfold of_size
      rw [List.filter_eq_nil_iff]
      intro b hb
      have := hback b hb
      simp only [decide_eq_true_eq]
      omega
    rw [hl, hnil]
    simp [of_size, hz]
    intro a ha h
    have := hback a ha
    omega
  · rw [hl]
    simp [of_size, hz]

theorem stable_step (t : Trace) (l : List request_t) (op : Op) (t1 : Trace)
    (l1 : List request_t) (_ : Good t l)
    (hp : t.s.scheduling_algo = 1 ∧ ∀ z, of_size z t.admitted = of_size z t.removed ++ of_size z l)
    (_ : Good t1 l1) (hstep : Step t l op t1 l1) :
    t1.s.scheduling_algo = 1 ∧
      ∀ z, of_size z t1.admitted = of_size z t1.removed ++ of_size z l1 := by
  obtain ⟨halgo, hlog⟩ := hp
  cases op with
  | enqueue fd sz =>
    obtain ⟨⟨ha, _⟩, hcase⟩ := hstep
    refine ⟨by rw [ha, halgo], ?_⟩
    rcases hcase with ⟨_, rfl, rfl⟩ | ⟨_, p, _, rfl, hadm, hrem, _, hscan⟩
    · exact hlog
    · intro z
      rw [of_size_insert z l _ p (scan_back (hscan halgo).1), hadm, hrem, ← List.append_assoc,
        ← hlog z]
      simp [of_size]
  | dequeue rnd =>
    obtain ⟨⟨ha, _⟩, hcase⟩ := hstep
    refine ⟨by rw [ha, halgo], ?_⟩
    rcases hcase with ⟨_, rfl, rfl⟩ | ⟨_, e, he, rfl, hrem, hadm⟩
    · exact hlog
    · have hr0 : pick t.s rnd = 0 := by simp [pick, halgo]
      rw [hr0] at he ⊢
      intro z
      rw [hadm, hrem, hlog z]
      cases l with
      | nil => simp at he
      | cons x xs =>
        simp only [List.getElem?_cons_zero, Option.some.injEq] at he
        subst he
        simp [of_size, List.filter_cons]
        split <;> simp

/-- C8. The shortest-file-first tie-break is stable: under policy 1, for every state with
room whose occupied region `l` is sorted (and whose tail slot is inside the array) and
every new entry, the admission returns and places the new entry behind every queued entry
of smaller or equal `filesize`, so behind every entry of the same `filesize`, and in front
of every entry of larger `filesize`. Hence in every execution from the empty queue, for
every size `z`, the extracted entries of size `z` are a prefix of the admitted entries of
size `z`: equal sizes leave in admission order. -/
theorem sff_stable (s : State) (l : List request_t) (fd st_size : Int)
    (halgo : s.scheduling_algo = 1)
    (hs0 : 0 ≤ s.buffer_start) (hs1 : s.buffer_start < s.buffer_max_size)
    (hc0 : 0 ≤ s.buffer_count) (hc1 : s.buffer_count < s.buffer_max_size)
    (hreg : region s = some l) (hsorted : sorted_by_size l)
    (hgap : slot s s.buffer_count < s.request_buffer.length) :
    (∃ s1 front back, request_handle_enqueue s fd st_size = some s1 ∧ l = front ++ back ∧
      region s1 = some (front ++ new_request fd st_size :: back) ∧
      (∀ x ∈ front, x.filesize ≤ (new_request fd st_size).filesize) ∧
      (∀ x ∈ back, (new_request fd st_size).filesize < x.filesize)) ∧
    ∀ (D : Nat) (bmax : Int) (ops : List Op) (t : Trace) (z : Int), 1 ≤ bmax →
      run (init D bmax 1) ops = some t →
      of_size z t.removed <+: of_size z t.admitted := by
  constructor
  · have hrep : Rep s l := Rep.of_region hreg hs0 hs1 hc0 (by omega)
    obtain ⟨s1, p, hp, hadm, hrep1, _, _, _, _, _, _, hbig, hsmall⟩ :=
      admit_sff_spec hrep halgo (by omega) hgap fd st_size
    obtain ⟨hfront, hback, _⟩ := sorted_insert (new_request fd st_size) hp hsorted hbig hsmall
    exact ⟨s1, l.take p, l.drop p, hadm, (List.take_append_drop p l).symm, hrep1.region_eq,
      hfront, hback⟩
  · intro D bmax ops t z hmax hrun
    obtain ⟨l1, _, _, hlog⟩ := run_invariant
      (fun t l => t.s.scheduling_algo = 1 ∧
        ∀ z, of_size z t.admitted = of_size z t.removed ++ of_size z l)
      stable_step ops (init D bmax 1) [] t (good_init D bmax 1 hmax) (Or.inr (Or.inl rfl))
      ⟨rfl, fun _ => rfl⟩ hrun
    exact ⟨of_size z l1, (hlog z).symm⟩

/-- Witness of C8: the queue holds sizes 10, 30, 50 (handles 1, 2, 3) in slots 2, 3, 0;
admitting handle 4 with size 30 places it behind handle 2 and in front of handle 3. -/
theorem sff_stable_witness :
    region ties = some [⟨1, 10⟩, ⟨2, 30⟩, ⟨3, 50⟩] ∧
      request_handle_enqueue ties 4 30 = some ties_next ∧
      region ties_next = some [⟨1, 10⟩, ⟨2, 30⟩, ⟨4, 30⟩, ⟨3, 50⟩] ∧
      ∃ s1 front back, request_handle_enqueue ties 4 30 = some s1 ∧
        [(⟨1, 10⟩ : request_t), ⟨2, 30⟩, ⟨3, 50⟩] = front ++ back ∧
        region s1 = some (front ++ new_request 4 30 :: back) ∧
        (∀ x ∈ front, x.filesize ≤ (new_request 4 30).filesize) ∧
        (∀ x ∈ back, (new_request 4 30).filesize < x.filesize) :=
  ⟨by decide, by decide, by decide,
    (sff_stable ties [⟨1, 10⟩, ⟨2, 30⟩, ⟨3, 50⟩] 4 30 (by decide) (by decide) (by decide)
      (by decide) (by decide) (by decide) (by decide) (by decide)).1⟩

/-! ## C9: an admission never inserts into a full queue -/

theorem reach_good (D : Nat) (bmax algo : Int) (ops : List Op) (t : Trace)
    (hmax : 1 ≤ bmax) (halgo : known_algo algo)
    (hrun : run (init D bmax algo) ops = some t) :
    ∃ l, Good t l ∧ List.Perm t.admitted (t.removed ++ l) := by
  refine run_invariant (fun t l => List.Perm t.admitted (t.removed ++ l)) ?_ ops
    (init D bmax algo) [] t (good_init D bmax algo hmax) halgo (List.Perm.refl _) hrun
  intro t l op t1 l1 _ hp _ hstep
  cases op with
  | enqueue fd sz =>
    obtain ⟨_, hcase⟩ := hstep
    rcases hcase with ⟨_, rfl, rfl⟩ | ⟨_, p, _, rfl, hadm, hrem, _, _⟩
    · exact hp
    · rw [hadm, hrem]
      have h1 : List.Perm (l.take p ++ new_request fd sz :: l.drop p)
          (new_request fd sz :: l) := by
        have := @List.perm_middle _ (new_request fd sz) (l.take p) (l.drop p)
        rwa [List.take_append_drop] at this
      have h2 : List.Perm (t.removed ++ (l.take p ++ new_request fd sz :: l.drop p))
          (new_request fd sz :: (t.removed ++ l)) :=
        (List.Perm.append_left _ h1).trans List.perm_middle
      exact ((List.perm_append_singleton _ _).trans (List.Perm.cons _ hp)).trans h2.symm
  | dequeue rnd =>
    obtain ⟨_, hcase⟩ := hstep
    rcases hcase with ⟨_, rfl, rfl⟩ | ⟨_, e, he, rfl, hrem, hadm⟩
    · exact hp
    · rw [hadm, hrem, List.append_assoc]
      exact hp.trans (List.Perm.append_left _ (perm_cons_eraseIdx he))

theorem enqueue_other_policy {s s1 : State} {fd st_size : Int}
    (h : request_handle_enqueue s fd st_size = some s1) (halgo : ¬ known_algo s.scheduling_algo) :
    s1.request_buffer = s.request_buffer ∧ s1.buffer_end = s.buffer_end := by
  have h0 : ¬ (s.scheduling_algo = 0 ∨ s.scheduling_algo = 2) := by
    intro h
    rcases h with h | h
    · exact halgo (Or.inl h)
    · exact halgo (Or.inr (Or.inr h))
  have h1 : ¬ s.scheduling_algo = 1 := fun h => halgo (Or.inr (Or.inl h))
  unfold request_handle_enqueue at h
  simp only [if_neg h0, if_neg h1, Option.some.injEq] at h
  subst h
  exact ⟨rfl, rfl⟩

/-- C9. Backpressure: in every state reached from the empty queue (capacity at least 1,
any policy value), a call of the admission code made while `buffer_count =
buffer_max_size` changes nothing, however often it is repeated, so it stays pending until
an extraction has lowered `buffer_count`. A call that does change the state ran its
insertion with `buffer_count < buffer_max_size`, and it overwrote no entry of the occupied
region: under the policies 0, 1, 2 the old region is a sublist of the new region, which
has one entry more; under any other policy value the array is not written at all. -/
theorem backpressure (D : Nat) (bmax algo : Int) (ops : List Op) (t : Trace)
    (fd st_size : Int) (hmax : 1 ≤ bmax) (hrun : run (init D bmax algo) ops = some t) :
    (t.s.buffer_count = t.s.buffer_max_size →
      ∀ calls : List (Int × Int), run t (calls.map (fun c => Op.enqueue c.1 c.2)) = some t) ∧
    ∀ t1, exec t (Op.enqueue fd st_size) = some t1 → t1 ≠ t →
      t.s.buffer_count < t.s.buffer_max_size ∧
      (known_algo algo → ∃ l l1, region t.s = some l ∧ region t1.s = some l1 ∧
        List.Sublist l l1 ∧ l1.length = l.length + 1) ∧
      (¬ known_algo algo → t1.s.request_buffer = t.s.request_buffer) := by
  obtain ⟨hc0, hc1, _, hfr⟩ := run_count ops (init D bmax algo) t hrun (le_refl _)
    (by show (0 : Int) ≤ bmax; omega)
  have hfr2 : t.s.scheduling_algo = algo := hfr
  constructor
  · intro hfull calls
    induction calls with
    | nil => rfl
    | cons c cs ih =>
      simp only [List.map_cons, run, exec, if_pos hfull, Option.some_bind]
      exact ih
  · intro t1 hexec hne
    have hroom : t.s.buffer_count ≠ t.s.buffer_max_size := by
      intro hfull
      simp only [exec, if_pos hfull, Option.some.injEq] at hexec
      exact hne hexec.symm
    refine ⟨by omega, ?_, ?_⟩
    · intro halgo
      obtain ⟨l, hg, _⟩ := reach_good D bmax algo ops t hmax halgo hrun
      obtain ⟨l1, hg1, _, hcase⟩ := exec_spec hg (by rw [hfr2]; exact halgo) hexec
      rcases hcase with ⟨hfull, _, _⟩ | ⟨_, p, hp, rfl, _, _, _, _⟩
      · exact absurd hfull hroom
      · refine ⟨l, _, hg.1.region_eq, hg1.1.region_eq, ?_, ?_⟩
        · have h := List.Sublist.append (List.Sublist.refl (l.take p))
            (List.sublist_cons_self (new_request fd st_size) (l.drop p))
          rwa [List.take_append_drop] at h
        · simp only [List.length_append, List.length_cons, List.length_take,
            List.length_drop]
          omega
    · intro halgo
      simp only [exec, if_neg hroom, Option.bind_eq_bind, Option.bind_eq_some,
        Option.some.injEq] at hexec
      obtain ⟨s1, hs1, rfl⟩ := hexec
      exact (enqueue_other_policy hs1 (by rw [hfr2]; exact halgo)).1

/-- Witness of C9: capacity 1 with one entry admitted; further admissions stay pending;
after one extraction the pending admission completes. -/
theorem backpressure_witness :
    run (init 1 1 0) [Op.enqueue 7 100] = some full1 ∧
      run full1 [Op.enqueue 8 200, Op.enqueue 8 200] = some full1 ∧
      run full1 [Op.enqueue 8 200, Op.dequeue 0, Op.enqueue 8 200] = some full1_next ∧
      run full1 ([((8 : Int), (200 : Int)), (9, 300)].map (fun c => Op.enqueue c.1 c.2)) =
        some full1 :=
  ⟨by decide, by decide, by decide,
    (backpressure 1 1 0 [Op.enqueue 7 100] full1 8 200 (by decide) (by decide)).1
      (by decide) [(8, 200), (9, 300)]⟩

/-! ## C10: an extraction never takes from an empty queue -/

/-- C10. Empty-block: in every state reached from the empty queue (capacity at least 1,
any policy value), a call of the extraction code made while `buffer_count = 0` changes
nothing, however often it is repeated. A call that does change the state ran its selection
with `buffer_count >= 1`, so the divisor of `rand() % buffer_count` is not zero, and the
index it selected is the slot of a logical offset below `buffer_count`. Under the
policies 0, 1, 2 the extraction from a queue that is not empty returns an entry of the
occupied region, and the occupied region together with the entries extracted before is a
permutation of the entries admitted: the entry was admitted and not yet removed. -/
theorem empty_block (D : Nat) (bmax algo : Int) (ops : List Op) (t : Trace) (rnd : Nat)
    (hmax : 1 ≤ bmax) (hrun : run (init D bmax algo) ops = some t) :
    (t.s.buffer_count = 0 →
      ∀ rnds : List Nat, run t (rnds.map Op.dequeue) = some t) ∧
    (∀ t1, exec t (Op.dequeue rnd) = some t1 → t1 ≠ t →
      1 ≤ t.s.buffer_count ∧
      cmod (rnd : Int) t.s.buffer_count = some (Int.tmod rnd t.s.buffer_count) ∧
      (pick t.s rnd : Int) < t.s.buffer_count ∧
      select_index t.s rnd =
        some (Int.tmod (t.s.buffer_start + (pick t.s rnd : Int)) t.s.buffer_max_size)) ∧
    (known_algo algo → t.s.buffer_count ≠ 0 →
      ∃ l s1 e, region t.s = some l ∧
        thread_request_serve_static_dequeue t.s rnd = some (s1, e) ∧ e ∈ l ∧
        List.Perm t.admitted (t.removed ++ l)) := by
  obtain ⟨hc0, hc1, _, hfr⟩ := run_count ops (init D bmax algo) t hrun (le_refl _)
    (by show (0 : Int) ≤ bmax; omega)
  have hfr2 : t.s.scheduling_algo = algo := hfr
  refine ⟨?_, ?_, ?_⟩
  · intro hempty rnds
    induction rnds with
    | nil => rfl
    | cons c cs ih =>
      simp only [List.map_cons, run, exec, if_pos hempty, Option.some_bind]
      exact ih
  · intro t1 hexec hne
    have hpos : t.s.buffer_count ≠ 0 := by
      intro hempty
      simp only [exec, if_pos hempty, Option.some.injEq] at hexec
      exact hne hexec.symm
    obtain ⟨hs0, hs1⟩ := run_start ops (init D bmax algo) t hrun (le_refl _)
      (by show (0 : Int) < bmax; omega)
    obtain ⟨hp1, hp2⟩ := select_index_spec rnd hs0 hs1 (by omega : 1 ≤ t.s.buffer_count)
    exact ⟨by omega, cmod_eq hpos, hp1, hp2⟩
  · intro halgo hpos
    obtain ⟨l, hg, hperm⟩ := reach_good D bmax algo ops t hmax halgo hrun
    obtain ⟨s1, e, _, he, _, hrem, _⟩ := remove_spec hg.1 hpos rnd
    exact ⟨l, s1, e, hg.1.region_eq, hrem, List.mem_iff_getElem?.mpr ⟨_, he⟩, hperm⟩

/-- Witness of C10: capacity 2 under policy 2, empty after one admission and one
extraction; further extractions stay pending; after an admission the pending extraction
returns the admitted entry. -/
theorem empty_block_witness :
    run (init 2 2 2) [Op.enqueue 7 100, Op.dequeue 5] = some empty2 ∧
      run empty2 [Op.dequeue 3, Op.dequeue 4] = some empty2 ∧
      run empty2 [Op.dequeue 3, Op.enqueue 8 200, Op.dequeue 3] = some empty2_next ∧
      run empty2 ([3, 4, 5].map Op.dequeue) = some empty2 :=
  ⟨by decide, by decide, by decide,
    (empty_block 2 2 2 [Op.enqueue 7 100, Op.dequeue 5] empty2 3 (by decide) (by decide)).1
      (by decide) [3, 4, 5]⟩

/-! ## C15: the shortest-file-first insertion conserves the queue contents -/

/-- C15. Shortest-first insertion conserves the queue contents: under policy 1, for every
state with `0 <= buffer_start < buffer_max_size` and `0 <= buffer_count < buffer_max_size`
whose occupied region `l` and tail slot lie inside the array, and every new entry, the
admission returns, and afterwards the occupied region is `l` with the new entry inserted at
one position `p` (erasing position `p` gives `l` back: no old entry is lost, duplicated or
reordered), `buffer_start` is unchanged and `buffer_count` has grown by one; this covers
the wrapped region and the empty queue. -/
theorem sff_insert_conserves (s : State) (l : List request_t) (fd st_size : Int)
    (halgo : s.scheduling_algo = 1)
    (hs0 : 0 ≤ s.buffer_start) (hs1 : s.buffer_start < s.buffer_max_size)
    (hc0 : 0 ≤ s.buffer_count) (hc1 : s.buffer_count < s.buffer_max_size)
    (hreg : region s = some l)
    (hgap : slot s s.buffer_count < s.request_buffer.length) :
    ∃ (s1 : State) (p : Nat), p ≤ l.length ∧
      request_handle_enqueue s fd st_size = some s1 ∧
      region s1 = some (l.take p ++ new_request fd st_size :: l.drop p) ∧
      (l.take p ++ new_request fd st_size :: l.drop p).eraseIdx p = l ∧
      s1.buffer_start = s.buffer_start ∧ s1.buffer_count = s.buffer_count + 1 := by
  have hrep : Rep s l := Rep.of_region hreg hs0 hs1 hc0 (by omega)
  obtain ⟨s1, p, hp, hadm, hrep1, _, _, _, hst, hcnt, _⟩ :=
    admit_sff_spec hrep halgo (by omega) hgap fd st_size
  refine ⟨s1, p, hp, hadm, hrep1.region_eq, ?_, hst, hcnt⟩
  apply List.ext_getElem?
  intro j
  by_cases hj : j < p
  · rw [List.getElem?_eraseIdx_of_lt _ _ _ hj, getElem?_take_cons_drop l _ p j hp, if_pos hj]
  · rw [List.getElem?_eraseIdx_of_ge _ _ _ (by omega),
      getElem?_take_cons_drop l _ p (j + 1) hp, if_neg (by omega), if_neg (by omega)]
    rfl

/-- Witness of C15: the region 20, 40 in slots 2, 0 of a capacity-3 array receives size 30
between them; the entry of slot 0 moves to slot 1. -/
theorem sff_insert_conserves_witness :
    region sff_wrapped = some [⟨1, 20⟩, ⟨2, 40⟩] ∧
      request_handle_enqueue sff_wrapped 9 30 = some sff_wrapped_next ∧
      region sff_wrapped_next = some [⟨1, 20⟩, ⟨9, 30⟩, ⟨2, 40⟩] ∧
      ∃ (s1 : State) (p : Nat), p ≤ [(⟨1, 20⟩ : request_t), ⟨2, 40⟩].length ∧
        request_handle_enqueue sff_wrapped 9 30 = some s1 ∧
        region s1 = some ([(⟨1, 20⟩ : request_t), ⟨2, 40⟩].take p ++ new_request 9 30 ::
          [(⟨1, 20⟩ : request_t), ⟨2, 40⟩].drop p) ∧
        ([(⟨1, 20⟩ : request_t), ⟨2, 40⟩].take p ++ new_request 9 30 ::
          [(⟨1, 20⟩ : request_t), ⟨2, 40⟩].drop p).eraseIdx p = [⟨1, 20⟩, ⟨2, 40⟩] ∧
        s1.buffer_start = sff_wrapped.buffer_start ∧
        s1.buffer_count = sff_wrapped.buffer_count + 1 :=
  ⟨by decide, by decide, by decide,
    sff_insert_conserves sff_wrapped [⟨1, 20⟩, ⟨2, 40⟩] 9 30 (by decide) (by decide)
      (by decide) (by decide) (by decide) (by decide) (by decide)⟩

/-! ## C19: the gap-closing loop runs for exactly `r` iterations -/

/-- The loop with the record of its visits is the loop of the worker. -/
theorem shift_loop_visits_fst (bmax start : Int) :
    ∀ (fuel : Nat) (buf : List request_t) (i : Int),
      (shift_loop_visits bmax start fuel buf i).map Prod.fst =
        shift_loop bmax start fuel buf i := by
  intro fuel
  induction fuel with
  | zero =>
    intro buf i
    simp only [shift_loop_visits, shift_loop]
    split <;> rfl
  | succ f ih =>
    intro buf i
    simp only [shift_loop_visits, shift_loop]
    split
    · rfl
    · cases h1 : cmod (i - 1 + bmax) bmax with
      | none => rfl
      | some src =>
        simp only [Option.bind_eq_bind, Option.some_bind]
        cases h2 : rd buf src with
        | none => rfl
        | some x =>
          simp only [Option.some_bind]
          cases h3 : wr buf i x with
          | none => rfl
          | some buf1 =>
            simp only [Option.some_bind]
            rw [← ih buf1 src]
            cases shift_loop_visits bmax start f buf1 src with
            | none => rfl
            | some v => rfl

theorem shift_loop_visits_spec {m st : Int} (hs0 : 0 ≤ st) (hs : st < m) :
    ∀ (r : Nat) (buf : List request_t), (r : Int) < m → m ≤ buf.length →
      ∃ (buf1 : List request_t) (visited : List Int), buf1.length = buf.length ∧
        (∀ fuel : Nat, r ≤ fuel →
          shift_loop_visits m st fuel buf (slotOf st m r) = some (buf1, visited)) ∧
        (∀ fuel : Nat, fuel < r →
          shift_loop_visits m st fuel buf (slotOf st m r) = none) ∧
        visited.length = r ∧ ∀ i ∈ visited, 0 ≤ i ∧ i < m := by
  intro r
  induction r with
  | zero =>
    intro buf _ _
    have h0 : slotOf st m ((0 : Nat) : Int) = st := slotOf_zero hs0 hs
    refine ⟨buf, [], rfl, ?_, ?_, rfl, ?_⟩
    · intro fuel _
      rw [h0]
      cases fuel <;> simp [shift_loop_visits]
    · intro fuel hf
      omega
    · intro i hi
      simp at hi
  | succ r ih =>
    intro buf hr hfit
    have hm0 : m ≠ 0 := by omega
    have hne : slotOf st m ((r + 1 : Nat) : Int) ≠ st := by
      intro h
      have h0 := slotOf_zero hs0 hs
      have := @slotOf_inj st m ((r + 1 : Nat) : Int) 0 hs0 hs (by omega) (by omega)
        (by omega) (by omega) (by rw [h, h0])
      omega
    have hback : Int.tmod (slotOf st m ((r + 1 : Nat) : Int) - 1 + m) m =
        slotOf st m (r : Int) := by
      have := @slotOf_back st m ((r + 1 : Nat) : Int) hs0 hs (by omega) (by omega)
      rw [this]
      congr 1
      omega
    have hr0 := @slotOf_range st m (r : Int) hs0 hs (by omega) (by omega)
    have hr1 := @slotOf_range st m ((r + 1 : Nat) : Int) hs0 hs (by omega) (by omega)
    obtain ⟨x, hx⟩ := @rd_isSome buf (slotOf st m (r : Int)) hr0.1 (by omega)
    obtain ⟨buf1, hw⟩ := @wr_isSome buf (slotOf st m ((r + 1 : Nat) : Int)) x hr1.1 (by omega)
    have hlen := (wr_some hw).2.2.1
    obtain ⟨buf2, vis, hlen2, hsome, hnone, hvlen, hvr⟩ := ih buf1 (by omega) (by omega)
    refine ⟨buf2, slotOf st m ((r + 1 : Nat) : Int) :: vis, by rw [hlen2, hlen], ?_, ?_,
      by simp [hvlen], ?_⟩
    · intro fuel hf
      obtain ⟨f, rfl⟩ : ∃ f, fuel = f + 1 := ⟨fuel - 1, by omega⟩
      simp only [shift_loop_visits, if_neg hne, cmod_eq hm0, hback, Option.bind_eq_bind,
        Option.some_bind, hx, hw, hsome f (by omega)]
    · intro fuel hf
      cases fuel with
      | zero => simp only [shift_loop_visits, if_neg hne]
      | succ f =>
        simp only [shift_loop_visits, if_neg hne, cmod_eq hm0, hback, Option.bind_eq_bind,
          Option.some_bind, hx, hw, hnone f (by omega), Option.none_bind]
    · intro i hi
      rcases List.mem_cons.mp hi with rfl | hi
      · exact hr1
      · exact hvr i hi

/-- C19. The gap-closing loop terminates in distance-from-head steps: for every state with
`buffer_max_size >= 1` and `0 <= buffer_start < buffer_max_size` whose circle lies inside
the array, and every selected index `(buffer_start + r) % buffer_max_size` with
`0 <= r < buffer_max_size`, the loop of lines 128-130 runs its body exactly `r` times (it
has finished with any allowance of at least `r` iterations and has not with fewer), every
`i` it visits lies in `[0, buffer_max_size)`, and it is the loop the worker runs. -/
theorem gap_loop_iterations (bmax start : Int) (r : Nat) (buf : List request_t)
    (hmax : 1 ≤ bmax) (hs0 : 0 ≤ start) (hs1 : start < bmax) (hr : (r : Int) < bmax)
    (hfit : bmax ≤ buf.length) :
    ∃ (buf1 : List request_t) (visited : List Int),
      (∀ fuel : Nat, r ≤ fuel →
        shift_loop_visits bmax start fuel buf (Int.tmod (start + r) bmax) =
          some (buf1, visited)) ∧
      (∀ fuel : Nat, fuel < r →
        shift_loop_visits bmax start fuel buf (Int.tmod (start + r) bmax) = none) ∧
      visited.length = r ∧ (∀ i ∈ visited, 0 ≤ i ∧ i < bmax) ∧
      shift_loop bmax start bmax.toNat buf (Int.tmod (start + r) bmax) = some buf1 := by
  obtain ⟨buf1, vis, _, hsome, hnone, hlen, hrange⟩ :=
    shift_loop_visits_spec hs0 hs1 r buf hr hfit
  refine ⟨buf1, vis, hsome, hnone, hlen, hrange, ?_⟩
  have h := shift_loop_visits_fst bmax start bmax.toNat buf (Int.tmod (start + r) bmax)
  have h2 := hsome bmax.toNat (by omega)
  simp only [slotOf] at h2
  rw [h2] at h
  exact h.symm

/-- Witness of C19: capacity 4, head at slot 3, selected index `(3 + 2) % 4 = 1`: the
body runs for `i = 1` and `i = 0`, and one iteration is not enough. -/
theorem gap_loop_iterations_witness :
    shift_loop_visits 4 3 2 wrapped.request_buffer (Int.tmod (3 + 2) 4) =
        some ([⟨1, 10⟩, ⟨2, 20⟩, ⟨0, 0⟩, ⟨1, 10⟩], [1, 0]) ∧
      shift_loop_visits 4 3 1 wrapped.request_buffer (Int.tmod (3 + 2) 4) = none ∧
      ∃ (buf1 : List request_t) (visited : List Int),
        (∀ fuel : Nat, 2 ≤ fuel →
          shift_loop_visits 4 3 fuel wrapped.request_buffer (Int.tmod (3 + (2 : Nat)) 4) =
            some (buf1, visited)) ∧
        (∀ fuel : Nat, fuel < 2 →
          shift_loop_visits 4 3 fuel wrapped.request_buffer (Int.tmod (3 + (2 : Nat)) 4) =
            none) ∧
        visited.length = 2 ∧ (∀ i ∈ visited, 0 ≤ i ∧ i < 4) ∧
        shift_loop 4 3 (4 : Int).toNat wrapped.request_buffer (Int.tmod (3 + (2 : Nat)) 4) =
          some buf1 :=
  ⟨by decide, by decide,
    gap_loop_iterations 4 3 2 wrapped.request_buffer (by decide) (by decide) (by decide)
      (by decide) (by decide)⟩

/-! ## C16: storage bounds -/

/-- Sizes below `2^31` are stored as they are. -/
theorem int_of_off_t_small (x : Int) (h0 : 0 ≤ x) (h1 : x < 2147483648) :
    int_of_off_t x = x := by
  unfold int_of_off_t
  omega

/-- C18, the failing input. A file of `2^31` bytes: the `int` field `filesize` initialised
from `st_size` is `-2^31`, not the byte length and not non-negative, and the
shortest-file-first queue places this file in front of a file of 10 bytes. -/
theorem sort_key_narrowed :
    (new_request 7 2147483648).filesize = -2147483648 ∧
      (new_request 7 2147483648).filesize ≠ 2147483648 ∧
      (new_request 7 2147483648).filesize < 0 ∧
      (run (init 2 2 1) [Op.enqueue 8 10, Op.enqueue 7 2147483648]).bind
        (fun t => region t.s) = some [⟨7, -2147483648⟩, ⟨8, 10⟩] := by
  decide

/-! ## C20: a policy value other than 0, 1, 2 -/

/-- C20, the failing input. Under the policy value 3 the admission of handle 7 with size
100 into the empty queue of capacity 2 raises `buffer_count` to 1 and writes nothing: the
occupied region is the zero entry the array was initialised with, and the admitted entry
is not in it. -/
theorem uncounted_entry :
    request_handle_enqueue (init 2 2 3).s 7 100 = some uncounted_demo ∧
      uncounted_demo.buffer_count = (init 2 2 3).s.buffer_count + 1 ∧
      uncounted_demo.request_buffer = (init 2 2 3).s.request_buffer ∧
      region uncounted_demo = some [⟨0, 0⟩] ∧
      new_request 7 100 ∉ [(⟨0, 0⟩ : request_t)] := by
  decide

/-! ## C11, C17: the handler the worker calls -/

set_option maxRecDepth 8000

/-- C11, the failing input. The worker extracts handle 7 and calls `request_handle(7)`; the
request is `GET /index.html HTTP/1.0` for a readable regular file. The handler admits
handle 7 once more: the queue state after the call differs from the state before it. -/
theorem handler_reenters_queue :
    thread_request_serve_static_dequeue one_queued 0 = some (after_dequeue, ⟨7, 100⟩) ∧
      request_handle after_dequeue 7 "GET /index.html HTTP/1.0\r\n" ["\r\n"] fs_regular =
        some { s := requeued, returned := true,
               out := [Event.print "method:GET uri:/index.html version:HTTP/1.0\n"] } ∧
      requeued ≠ after_dequeue ∧
      requeued.buffer_count = after_dequeue.buffer_count + 1 ∧
      region after_dequeue = some [] ∧ region requeued = some [⟨7, 100⟩] := by
  decide

/-- C17, the failing input. The worker extracts handle 7 and the request line is
`POST / HTTP/1.0`: `request_error` invokes `close_or_die(7)` inside the handler, before it
returns, and the worker invokes it again: two invocations in one iteration. -/
theorem handle_closed_twice :
    (request_handle after_dequeue 7 "POST / HTTP/1.0\r\n" ["\r\n"] fs_regular).map
        (fun h => (h.returned, closes 7 h.out, h.out.getLast?)) =
        some (true, 1, some (Event.close 7)) ∧
      (thread_request_serve_static_iteration one_queued 0 "POST / HTTP/1.0\r\n" ["\r\n"]
          fs_regular).map (fun h => (h.returned, closes 7 h.out)) = some (true, 2) := by
  decide

/-! ## Lengths of strings and the tokens of a request line -/

theorem strlen_append (a b : String) : strlen (a ++ b) = strlen a + strlen b := by
  simp [strlen, String.toList, String.data_append]

theorem strlen_mk_replicate (n : Nat) (c : Char) :
    strlen (String.mk (List.replicate n c)) = n * c.utf8Size := by
  simp [strlen, String.toList, List.map_replicate, List.sum_replicate]

/-- The length of the body of an error response: 106 bytes of markup and the four
strings. -/
theorem error_body_strlen (cause errnum shortmsg longmsg : String) :
    strlen (error_body cause errnum shortmsg longmsg) =
      106 + strlen errnum + strlen shortmsg + strlen longmsg + strlen cause := by
  have h1 : strlen
      "<!doctype html>\r\n<head><title>WebServer Error</title></head>\r\n<body><h2>" = 72 := by
    decide
  have h2 : strlen ": " = 2 := by decide
  have h3 : strlen "</h2><p>" = 8 := by decide
  have h4 : strlen "</p></body>\r\n</html>\r\n" = 22 := by decide
  simp only [error_body, strlen_append, h1, h2, h3, h4]
  omega

theorem dropWhile_run {p : Char → Bool} (a : List Char) (c : Char) (r : List Char)
    (ha : ∀ x ∈ a, p x = true) (hc : p c = false) :
    (a ++ c :: r).dropWhile p = c :: r := by
  induction a with
  | nil => simp [List.dropWhile, hc]
  | cons x a ih =>
    have hx := ha x (List.mem_cons_self x a)
    rw [List.cons_append, List.dropWhile_cons_of_pos hx]
    exact ih (fun y hy => ha y (List.mem_cons_of_mem x hy))

theorem takeWhile_run {p : Char → Bool} (a : List Char) (c : Char) (r : List Char)
    (ha : ∀ x ∈ a, p x = true) (hc : p c = false) :
    (a ++ c :: r).takeWhile p = a := by
  induction a with
  | nil => simp [List.takeWhile, hc]
  | cons x a ih =>
    have hx := ha x (List.mem_cons_self x a)
    rw [List.cons_append, List.takeWhile_cons_of_pos hx]
    rw [ih (fun y hy => ha y (List.mem_cons_of_mem x hy))]

/-- A conversion `%s` on white space `sp`, a token `tok` and a white-space byte `c`: the
token is `tok` and the scan stops in front of `c`. -/
theorem scan_token_spec (sp tok : List Char) (c : Char) (rest : List Char)
    (hsp : ∀ x ∈ sp, isspace x = true) (hne : tok ≠ [])
    (hns : ∀ x ∈ tok, isspace x = false) (hc : isspace c = true) :
    scan_token (sp ++ (tok ++ c :: rest)) = some (String.mk tok, c :: rest) := by
  obtain ⟨t, ts, rfl⟩ := List.exists_cons_of_ne_nil hne
  have h1 : (sp ++ ((t :: ts) ++ c :: rest)).dropWhile isspace = (t :: ts) ++ c :: rest := by
    rw [List.cons_append]
    exact dropWhile_run sp t _ hsp (hns t (List.mem_cons_self _ _))
  have h2 : ((t :: ts) ++ c :: rest).takeWhile (fun x => !(isspace x)) = t :: ts :=
    takeWhile_run _ c rest (fun x hx => by simp [hns x hx]) (by simp [hc])
  have h3 : ((t :: ts) ++ c :: rest).dropWhile (fun x => !(isspace x)) = c :: rest :=
    dropWhile_run _ c rest (fun x hx => by simp [hns x hx]) (by simp [hc])
  simp only [scan_token, h1, h2, h3]
  simp

theorem replicate_ne_nil (n : Nat) (c : Char) (h : 0 < n) : List.replicate n c ≠ [] := by
  intro e
  have hl := congrArg List.length e
  rw [List.length_replicate] at hl
  simp only [List.length_nil] at hl
  omega

theorem strstr_absent (hay needle : String) (c : Char) (r : List Char)
    (hn : needle.toList = c :: r) (hc : c ∉ hay.toList) : strstr hay needle = false := by
  rw [Bool.eq_false_iff]
  intro h
  simp only [strstr, List.any_eq_true, List.mem_tails] at h
  obtain ⟨t, hsuf, hpre⟩ := h
  rw [List.isPrefixOf_iff_prefix] at hpre
  have hct : c ∈ t := hpre.subset (by rw [hn]; exact List.mem_cons_self _ _)
  exact hc (hsuf.subset hct)

theorem strstr_present (hay needle : String) (a b : List Char)
    (h : hay.toList = a ++ (needle.toList ++ b)) : strstr hay needle = true := by
  simp only [strstr, List.any_eq_true, List.mem_tails]
  exact ⟨needle.toList ++ b, ⟨a, h.symm⟩, List.isPrefixOf_iff_prefix.mpr ⟨b, rfl⟩⟩

/-! ## Responses that fit the arrays -/

theorem store_eq_some {s t : String} : store s = some t ↔ strlen s < MAXBUF ∧ s = t := by
  unfold store
  split <;> simp [*]

theorem store_fits {s : String} (h : strlen s < MAXBUF) : store s = some s := by
  simp [store, h]

theorem digitChar_utf8Size : ∀ m < 10, (Nat.digitChar m).utf8Size = 1 := by
  decide

theorem toDigitsCore_utf8Size (fuel n : Nat) (ds : List Char)
    (h : ∀ c ∈ ds, c.utf8Size = 1) :
    ∀ c ∈ Nat.toDigitsCore 10 fuel n ds, c.utf8Size = 1 := by
  induction fuel generalizing n ds with
  | zero => simpa [Nat.toDigitsCore] using h
  | succ f ih =>
    have hd : ∀ c ∈ Nat.digitChar (n % 10) :: ds, c.utf8Size = 1 := by
      intro c hc
      rcases List.mem_cons.mp hc with rfl | hc
      · exact digitChar_utf8Size _ (Nat.mod_lt _ (by decide))
      · exact h c hc
    simp only [Nat.toDigitsCore]
    split
    · exact hd
    · exact ih _ _ hd

theorem strlen_mk_of_utf8Size (l : List Char) (h : ∀ c ∈ l, c.utf8Size = 1) :
    strlen (String.mk l) = l.length := by
  induction l with
  | nil => rfl
  | cons c l ih =>
    have hc := h c (List.mem_cons_self c l)
    have hl := ih (fun x hx => h x (List.mem_cons_of_mem c hx))
    simp only [strlen, String.toList, List.map_cons, List.sum_cons, List.length_cons] at hl ⊢
    omega

/-- The decimal digits that `%lu` prints for a number below `10 ^ e` are at most `e`
bytes. -/
theorem strlen_toString (n e : Nat) (he : 0 < e) (h : n < 10 ^ e) :
    strlen (toString n) ≤ e := by
  have h1 : strlen (toString n) = (Nat.repr n).length :=
    strlen_mk_of_utf8Size _ (toDigitsCore_utf8Size _ _ _ (fun c hc => absurd hc (List.not_mem_nil c)))
  rw [h1]
  exact Nat.repr_length n e he h

/-- When the body and the status line fit, `request_error` writes the four strings and
closes the handle. -/
theorem request_error_fits (fd : Int) (cause errnum shortmsg longmsg : String)
    (hb : strlen (error_body cause errnum shortmsg longmsg) < MAXBUF)
    (hs : strlen ("HTTP/1.0 " ++ errnum ++ " " ++ shortmsg ++ "\r\n") < MAXBUF) :
    request_error fd cause errnum shortmsg longmsg =
      some [Event.write fd ("HTTP/1.0 " ++ errnum ++ " " ++ shortmsg ++ "\r\n"),
            Event.write fd "Content-Type: text/html\r\n",
            Event.write fd ("Content-Length: " ++
              toString (strlen (error_body cause errnum shortmsg longmsg)) ++ "\r\n\r\n"),
            Event.write fd (error_body cause errnum shortmsg longmsg),
            Event.close fd] := by
  have hn : strlen (error_body cause errnum shortmsg longmsg) < 10 ^ 4 := by
    unfold MAXBUF at hb
    omega
  have hd := strlen_toString _ 4 (by decide) hn
  have h2 : strlen "Content-Type: text/html\r\n" < MAXBUF := by decide
  have hc1 : strlen "Content-Length: " = 16 := by decide
  have hc2 : strlen "\r\n\r\n" = 4 := by decide
  have h3 : strlen ("Content-Length: " ++
      toString (strlen (error_body cause errnum shortmsg longmsg)) ++ "\r\n\r\n") < MAXBUF := by
    rw [strlen_append, strlen_append, hc1, hc2]
    unfold MAXBUF
    omega
  simp only [request_error, store_fits hb, store_fits hs, store_fits h2, store_fits h3,
    Option.bind_eq_bind, Option.some_bind]

/-- Whenever `request_error` returns, it has written the four strings and closed the
handle, and the body fitted. -/
theorem request_error_eq {fd : Int} {cause errnum shortmsg longmsg : String}
    {err : List Event} (h : request_error fd cause errnum shortmsg longmsg = some err) :
    err = [Event.write fd ("HTTP/1.0 " ++ errnum ++ " " ++ shortmsg ++ "\r\n"),
           Event.write fd "Content-Type: text/html\r\n",
           Event.write fd ("Content-Length: " ++
             toString (strlen (error_body cause errnum shortmsg longmsg)) ++ "\r\n\r\n"),
           Event.write fd (error_body cause errnum shortmsg longmsg),
           Event.close fd] ∧
      strlen (error_body cause errnum shortmsg longmsg) < MAXBUF := by
  simp only [request_error, Option.bind_eq_bind, Option.bind_eq_some, store_eq_some,
    Option.some.injEq] at h
  obtain ⟨body, ⟨hb, rfl⟩, b1, ⟨_, rfl⟩, b2, ⟨_, rfl⟩, b3, ⟨_, rfl⟩, rfl⟩ := h
  exact ⟨rfl, hb⟩

theorem status_of_error {fd : Int} {cause errnum shortmsg longmsg : String}
    {err : List Event} (h : request_error fd cause errnum shortmsg longmsg = some err)
    (p : String) :
    status_line (Event.print p :: err) =
      some ("HTTP/1.0 " ++ errnum ++ " " ++ shortmsg ++ "\r\n") := by
  rw [(request_error_eq h).1]
  rfl

/-- The response of the dynamic-content check is not the response of the method check,
whatever the file name and the method are. -/
theorem body_differs {fd : Int} {c1 c2 : String} {e1 e2 : List Event}
    (h1 : request_error fd c1 "501" "Not Implemented" "dynamic content not supported" =
      some e1)
    (h2 : request_error fd c2 "501" "Not Implemented"
      "server does not implement this method" = some e2) : e1 ≠ e2 := by
  rw [(request_error_eq h1).1, (request_error_eq h2).1]
  intro h
  simp only [List.cons.injEq, Event.write.injEq, true_and, and_true] at h
  have h5 := congrArg String.data h.2
  simp only [error_body, String.data_append, List.append_assoc,
    List.append_cancel_left_eq] at h5
  simp at h5

theorem strlen_mk_sublist {l1 l2 : List Char} (h : l1.Sublist l2) :
    strlen (String.mk l1) ≤ strlen (String.mk l2) :=
  (h.map Char.utf8Size).sum_le_sum (fun _ _ => Nat.zero_le _)

theorem strlen_mk_toList (s : String) : strlen (String.mk s.toList) = strlen s := rfl

/-- What `request_parse_uri` returns: the file name of a static request is the resolved
file name, and no file name is more than 11 bytes longer than the URI. -/
theorem parse_uri_static {uri filename cgiargs : String} {is_static : Bool}
    (h : request_parse_uri uri = some (is_static, filename, cgiargs)) :
    is_static = !(strstr uri "cgi") ∧ (is_static = true → filename = resolved_filename uri) ∧
      strlen filename ≤ strlen uri + 11 := by
  have h1 : strlen "." = 1 := by decide
  have h2 : strlen "index.html" = 10 := by decide
  unfold request_parse_uri at h
  split at h
  · rename_i hs
    simp only [Option.bind_eq_bind, Option.bind_eq_some, store_eq_some] at h
    obtain ⟨c0, ⟨_, rfl⟩, f0, ⟨_, rfl⟩, h⟩ := h
    cases hl : uri.toList.getLast? with
    | none =>
      rw [hl] at h
      simp at h
    | some c =>
      rw [hl] at h
      by_cases hc : c = '/'
      · subst hc
        simp only [if_true, Option.bind_eq_bind, Option.bind_eq_some, store_eq_some,
          Option.some.injEq, Prod.mk.injEq] at h
        obtain ⟨f1, ⟨_, rfl⟩, e1, e2, _⟩ := h
        refine ⟨by rw [← e1, hs], fun _ => ?_, ?_⟩
        · rw [← e2]
          unfold resolved_filename
          rw [hl]
          simp
        · rw [← e2, strlen_append, strlen_append, h1, h2]
          omega
      · simp only [if_neg hc, Option.some.injEq, Prod.mk.injEq] at h
        obtain ⟨e1, e2, _⟩ := h
        refine ⟨by rw [← e1, hs], fun _ => ?_, ?_⟩
        · rw [← e2]
          unfold resolved_filename
          rw [hl]
          simp [hc]
        · rw [← e2, strlen_append, h1]
          omega
  · rename_i hs
    simp only [Option.bind_eq_bind, Option.bind_eq_some, store_eq_some, Option.some.injEq,
      Prod.mk.injEq] at h
    obtain ⟨c0, ⟨_, rfl⟩, f0, ⟨_, rfl⟩, e1, e2, _⟩ := h
    refine ⟨?_, fun h2 => ?_, ?_⟩
    · rw [← e1]
      simpa using hs
    · rw [← e1] at h2
      simp at h2
    · have hle := strlen_mk_sublist (List.takeWhile_sublist (l := uri.toList) (fun c => c ≠ '?'))
      rw [strlen_mk_toList] at hle
      rw [← e2, strlen_append, h1]
      omega

/-- A URI that is not empty and leaves 11 bytes of room is parsed. -/
theorem parse_uri_total {uri : String} (h : uri.toList.getLast? ≠ none)
    (hu : strlen uri + 11 < MAXBUF) :
    ∃ is_static filename cgiargs, request_parse_uri uri = some (is_static, filename, cgiargs) := by
  have h1 : strlen "." = 1 := by decide
  have h2 : strlen "index.html" = 10 := by decide
  have s0 : store "" = some "" := by decide
  unfold request_parse_uri
  split
  · have s1 : store ("." ++ uri) = some ("." ++ uri) :=
      store_fits (by rw [strlen_append, h1]; omega)
    have s2 : store ("." ++ uri ++ "index.html") = some ("." ++ uri ++ "index.html") :=
      store_fits (by rw [strlen_append, strlen_append, h1, h2]; omega)
    cases hl : uri.toList.getLast? with
    | none => exact absurd hl h
    | some c =>
      by_cases hc : c = '/'
      · exact ⟨true, "." ++ uri ++ "index.html", "", by simp [s0, s1, s2, hc]⟩
      · exact ⟨true, "." ++ uri, "", by simp [s0, s1, hc]⟩
  · have hle := strlen_mk_sublist (List.takeWhile_sublist (l := uri.toList) (fun c => c ≠ '?'))
    have hle2 := strlen_mk_sublist (((uri.toList.dropWhile (fun c => c ≠ '?')).drop_sublist 1).trans
      (List.dropWhile_sublist (l := uri.toList) (fun c => c ≠ '?')))
    rw [strlen_mk_toList] at hle hle2
    have s1 := store_fits (s := String.mk ((uri.toList.dropWhile (fun c => c ≠ '?')).drop 1))
      (by omega)
    have s2 := store_fits (s := "." ++ String.mk (uri.toList.takeWhile (fun c => c ≠ '?')))
      (by rw [strlen_append, h1]; omega)
    exact ⟨false, "." ++ String.mk (uri.toList.takeWhile (fun c => c ≠ '?')),
      String.mk ((uri.toList.dropWhile (fun c => c ≠ '?')).drop 1),
      by simp only [s1, s2, Option.bind_eq_bind, Option.some_bind]⟩

theorem resolved_nonempty {uri : String} (h : strstr (resolved_filename uri) ".." = true) :
    uri.toList.getLast? ≠ none := by
  intro hl
  have he : uri = "" := by
    apply String.ext
    simpa using hl
  subst he
  revert h
  decide

/-! ## C12, C13: requests whose responses fit -/

theorem other_status_differs (method p : String) {fd : Int}
    {cause errnum shortmsg longmsg : String} {err : List Event} (herr : request_error fd cause errnum shortmsg longmsg = some err)
    (hne : "HTTP/1.0 " ++ errnum ++ " " ++ shortmsg ++ "\r\n" ≠
      "HTTP/1.0 501 Not Implemented\r\n") :
    (∀ e2, request_error fd method "501" "Not Implemented"
        "server does not implement this method" = some e2 →
      [Event.print p] ++ err ≠ Event.print p :: e2) ∧
    (status_line ([Event.print p] ++ err) = some "HTTP/1.0 501 Not Implemented\r\n" →
      False) := by
  have h1 := status_of_error herr p
  constructor
  · intro e2 h2 he
    have h3 := status_of_error h2 p
    rw [← he, List.singleton_append, h1, Option.some.injEq] at h3
    exact hne h3
  · intro he
    rw [List.singleton_append, h1, Option.some.injEq] at he
    exact hne he

/-- C13 where the response fits. For a request line that fits `buf` and has three tokens:
a method that differs from `GET` when letter case is ignored, of at most 8030 bytes, gets
the response of status 501 with reason `Not Implemented`, the handler returns and the
queue state is as it was; with 8031 bytes or more, `body` overflows. For a method equal to
`GET` in any letter case the handler never writes that response, and a status line 501, if
it writes one, comes from the check for dynamic content (the URI contains `cgi`), again
with the queue state unchanged. -/
theorem method_check_fits (s : State) (fd : Int) (line : String) (headers : List String)
    (fs : String → Option stat_t) (method uri version : String)
    (hline : strlen line < MAXBUF) (hsc : sscanf3 line = some (method, uri, version)) :
    (strcasecmp method "GET" = true → strlen method ≤ 8030 →
      request_handle s fd line headers fs =
        some { s := s, returned := true,
               out := [Event.print ("method:" ++ method ++ " uri:" ++ uri ++ " version:" ++
                         version ++ "\n"),
                       Event.write fd "HTTP/1.0 501 Not Implemented\r\n",
                       Event.write fd "Content-Type: text/html\r\n",
                       Event.write fd ("Content-Length: " ++
                         toString (strlen (error_body method "501" "Not Implemented"
                           "server does not implement this method")) ++ "\r\n\r\n"),
                       Event.write fd (error_body method "501" "Not Implemented"
                         "server does not implement this method"),
                       Event.close fd] }) ∧
    (strcasecmp method "GET" = true → 8031 ≤ strlen method →
      request_handle s fd line headers fs = none) ∧
    (strcasecmp method "GET" = false →
      ∀ h, request_handle s fd line headers fs = some h →
        (∀ err, request_error fd method "501" "Not Implemented"
            "server does not implement this method" = some err →
          h.out ≠ Event.print ("method:" ++ method ++ " uri:" ++ uri ++ " version:" ++
            version ++ "\n") :: err) ∧
        (status_line h.out = some "HTTP/1.0 501 Not Implemented\r\n" →
          strstr uri "cgi" = true ∧ h.s = s)) := by
  have l1 : strlen "501" = 3 := by decide
  have l2 : strlen "Not Implemented" = 15 := by decide
  have l3 : strlen "server does not implement this method" = 37 := by decide
  refine ⟨fun hm hlen => ?_, fun hm hlen => ?_, fun hm h hh => ?_⟩
  · have hb : strlen (error_body method "501" "Not Implemented"
        "server does not implement this method") < MAXBUF := by
      rw [error_body_strlen, l1, l2, l3]
      unfold MAXBUF
      omega
    have hs : strlen ("HTTP/1.0 " ++ "501" ++ " " ++ "Not Implemented" ++ "\r\n") < MAXBUF := by
      decide
    have he := request_error_fits fd method "501" "Not Implemented"
      "server does not implement this method" hb hs
    have hst : "HTTP/1.0 " ++ "501" ++ " " ++ "Not Implemented" ++ "\r\n" =
        "HTTP/1.0 501 Not Implemented\r\n" := by decide
    rw [hst] at he
    simp [request_handle, store_fits hline, hsc, hm, he]
  · have hb : ¬ strlen (error_body method "501" "Not Implemented"
        "server does not implement this method") < MAXBUF := by
      rw [error_body_strlen, l1, l2, l3]
      unfold MAXBUF
      omega
    have he : request_error fd method "501" "Not Implemented"
        "server does not implement this method" = none := by
      simp [request_error, store, hb]
    simp [request_handle, store_fits hline, hsc, hm, he]
  · unfold request_handle at hh
    simp only [store_fits hline, hsc, hm, Bool.false_eq_true, if_false, Option.bind_eq_bind,
      Option.some_bind] at hh
    cases hhd : request_read_headers headers with
    | none => simp [hhd] at hh
    | some rest =>
      cases hp : request_parse_uri uri with
      | none => simp [hhd, hp] at hh
      | some r =>
        obtain ⟨is_static, filename, cgiargs⟩ := r
        obtain ⟨hst, _, _⟩ := parse_uri_static hp
        simp only [hhd, hp, Option.some_bind] at hh
        cases hfs : fs filename with
        | none =>
          simp only [hfs, Option.bind_eq_some, Option.some.injEq] at hh
          obtain ⟨err, herr, rfl⟩ := hh
          have h := other_status_differs method
            ("method:" ++ method ++ " uri:" ++ uri ++ " version:" ++ version ++ "\n")
            herr (by decide)
          exact ⟨h.1, fun he => absurd he h.2⟩
        | some sbuf =>
          simp only [hfs] at hh
          cases is_static with
          | false =>
            simp only [Bool.false_eq_true, if_false, Option.bind_eq_some,
              Option.some.injEq] at hh
            obtain ⟨err, herr, rfl⟩ := hh
            refine ⟨?_, fun _ => ⟨by simpa using hst, rfl⟩⟩
            intro e2 h2 he
            simp only [List.singleton_append, List.cons.injEq, true_and] at he
            exact body_differs herr h2 he
          | true =>
            simp only [if_true] at hh
            split at hh
            · simp only [Option.bind_eq_some, Option.some.injEq] at hh
              obtain ⟨err, herr, rfl⟩ := hh
              have h := other_status_differs method
                ("method:" ++ method ++ " uri:" ++ uri ++ " version:" ++ version ++ "\n")
                herr (by decide)
              exact ⟨h.1, fun he => absurd he h.2⟩
            · split at hh
              · simp only [Option.bind_eq_some, Option.some.injEq] at hh
                obtain ⟨err, herr, rfl⟩ := hh
                have h := other_status_differs method
                  ("method:" ++ method ++ " uri:" ++ uri ++ " version:" ++ version ++ "\n")
                  herr (by decide)
                exact ⟨h.1, fun he => absurd he h.2⟩
              · split at hh
                · simp only [Option.some.injEq] at hh
                  subst hh
                  constructor
                  · intro e2 h2
                    rw [(request_error_eq h2).1]
                    simp
                  · intro he
                    simp [status_line] at he
                · simp only [Option.bind_eq_some, Option.some.injEq] at hh
                  obtain ⟨s1, _, rfl⟩ := hh
                  constructor
                  · intro e2 h2
                    rw [(request_error_eq h2).1]
                    simp
                  · intro he
                    simp [status_line] at he

/-- Requests for which `method_check_fits` speaks: `PUT` gets the 501 response; `get` for a
static file gets none, and `gEt` for a CGI path gets the 501 of the dynamic-content
check. -/
theorem method_check_examples :
    strcasecmp "PUT" "GET" = true ∧ strcasecmp "get" "GET" = false ∧
      (request_handle one_queued 9 "PUT /index.html HTTP/1.0\r\n" ["\r\n"] fs_regular).map
          (fun h => (h.s, h.returned, status_line h.out)) =
        some (one_queued, true, some "HTTP/1.0 501 Not Implemented\r\n") ∧
      (request_handle one_queued 9 "get /index.html HTTP/1.0\r\n" ["\r\n"] fs_regular).map
          (fun h => (h.returned, status_line h.out)) = some (true, none) ∧
      (request_handle one_queued 9 "gEt /cgi-bin/x?a=b HTTP/1.0\r\n" ["\r\n"]
          fs_regular).map (fun h => (h.s, status_line h.out)) =
        some (one_queued, some "HTTP/1.0 501 Not Implemented\r\n") := by
  decide

/-- Whatever the queue holds and whatever the unsupported method of at most 8030 bytes
is, the iteration of the worker invokes `close_or_die` twice on the handle it
extracted. -/
theorem bad_method_closes_twice (s s1 : State) (req : request_t) (rnd : Nat)
    (line : String) (headers : List String) (fs : String → Option stat_t)
    (method uri version : String)
    (hpos : s.buffer_count ≠ 0)
    (hdq : thread_request_serve_static_dequeue s rnd = some (s1, req))
    (hline : strlen line < MAXBUF) (hsc : sscanf3 line = some (method, uri, version))
    (hm : strcasecmp method "GET" = true) (hlen : strlen method ≤ 8030) :
    (thread_request_serve_static_iteration s rnd line headers fs).map
      (fun h => closes req.fd h.out) = some 2 := by
  unfold thread_request_serve_static_iteration
  simp [hpos, hdq, (method_check_fits s1 req.fd line headers fs method uri version hline
    hsc).1 hm hlen, closes, List.countP_cons]

/-- C12 where the response fits. For a request line that fits `buf` and has three tokens,
with complete headers, a method of at most 8030 bytes and a URI of at most 8027 bytes
whose resolved file name contains `".."`: for every queue state and every answer of
`stat`, `request_handle` returns after `request_error` has written a response with a
status line 501, 404 or 403 and closed the handle, and the queue state is as it was: the
connection is not admitted. -/
theorem traversal_fits (s : State) (fd : Int) (line : String) (headers : List String)
    (fs : String → Option stat_t) (method uri version : String)
    (hline : strlen line < MAXBUF) (hsc : sscanf3 line = some (method, uri, version))
    (hdr : request_read_headers headers ≠ none)
    (htrav : strstr (resolved_filename uri) ".." = true)
    (hm : strlen method ≤ 8030) (hu : strlen uri ≤ 8027) :
    ∃ cause errnum shortmsg longmsg err,
      request_error fd cause errnum shortmsg longmsg = some err ∧
      request_handle s fd line headers fs =
        some { s := s, returned := true,
               out := Event.print ("method:" ++ method ++ " uri:" ++ uri ++ " version:" ++
                 version ++ "\n") :: err } ∧
      status_line err = some ("HTTP/1.0 " ++ errnum ++ " " ++ shortmsg ++ "\r\n") ∧
      err.getLast? = some (Event.close fd) ∧
      (errnum = "501" ∨ errnum = "404" ∨ errnum = "403") := by
  have l1 : strlen "501" = 3 := by decide
  have l2 : strlen "Not Implemented" = 15 := by decide
  have l3 : strlen "server does not implement this method" = 37 := by decide
  have l4 : strlen "404" = 3 := by decide
  have l5 : strlen "Not found" = 9 := by decide
  have l6 : strlen "file not found on server" = 24 := by decide
  have l7 : strlen "403" = 3 := by decide
  have l8 : strlen "Forbidden" = 9 := by decide
  have l9 : strlen "cannot read this file" = 21 := by decide
  have l10 : strlen "directory traversal attempt blocked" = 35 := by decide
  have l11 : strlen "dynamic content not supported" = 29 := by decide
  have fits : ∀ cause errnum shortmsg longmsg,
      strlen (error_body cause errnum shortmsg longmsg) < MAXBUF →
      strlen ("HTTP/1.0 " ++ errnum ++ " " ++ shortmsg ++ "\r\n") < MAXBUF →
      ∃ err, request_error fd cause errnum shortmsg longmsg = some err ∧
        status_line err = some ("HTTP/1.0 " ++ errnum ++ " " ++ shortmsg ++ "\r\n") ∧
        err.getLast? = some (Event.close fd) := by
    intro cause errnum shortmsg longmsg hb hs
    exact ⟨_, request_error_fits fd cause errnum shortmsg longmsg hb hs, rfl, rfl⟩
  obtain ⟨rest, hrest⟩ : ∃ rest, request_read_headers headers = some rest := by
    cases h : request_read_headers headers with
    | none => exact absurd h hdr
    | some r => exact ⟨r, rfl⟩
  obtain ⟨is_static, filename, cgiargs, hparse⟩ :=
    parse_uri_total (resolved_nonempty htrav) (by unfold MAXBUF; omega)
  obtain ⟨_, hname, hflen⟩ := parse_uri_static hparse
  unfold request_handle
  by_cases hmeth : strcasecmp method "GET" = true
  · obtain ⟨err, herr, hstat, hlast⟩ := fits method "501" "Not Implemented"
      "server does not implement this method"
      (by rw [error_body_strlen, l1, l2, l3]; unfold MAXBUF; omega) (by decide)
    exact ⟨method, "501", "Not Implemented", "server does not implement this method", err,
      herr, by simp [store_fits hline, hsc, hmeth, herr], hstat, hlast, Or.inl rfl⟩
  · simp only [store_fits hline, hsc, hmeth, hrest, hparse, Option.bind_eq_bind,
      Option.some_bind]
    cases hfs : fs filename with
    | none =>
      obtain ⟨err, herr, hstat, hlast⟩ := fits filename "404" "Not found"
        "file not found on server"
        (by rw [error_body_strlen, l4, l5, l6]; unfold MAXBUF; omega) (by decide)
      exact ⟨filename, "404", "Not found", "file not found on server", err, herr,
        by simp [herr], hstat, hlast, Or.inr (Or.inl rfl)⟩
    | some sbuf =>
      cases is_static with
      | false =>
        obtain ⟨err, herr, hstat, hlast⟩ := fits filename "501" "Not Implemented"
          "dynamic content not supported"
          (by rw [error_body_strlen, l1, l2, l11]; unfold MAXBUF; omega) (by decide)
        exact ⟨filename, "501", "Not Implemented", "dynamic content not supported", err,
          herr, by simp [herr], hstat, hlast, Or.inl rfl⟩
      | true =>
        by_cases hread : (!(S_ISREG sbuf.st_mode) || !(S_IRUSR sbuf.st_mode)) = true
        · obtain ⟨err, herr, hstat, hlast⟩ := fits filename "403" "Forbidden"
            "cannot read this file"
            (by rw [error_body_strlen, l7, l8, l9]; unfold MAXBUF; omega) (by decide)
          exact ⟨filename, "403", "Forbidden", "cannot read this file", err, herr,
            by simp [hread, herr], hstat, hlast, Or.inr (Or.inr rfl)⟩
        · have htr : strstr filename ".." = true := by
            rw [hname rfl]
            exact htrav
          obtain ⟨err, herr, hstat, hlast⟩ := fits filename "403" "Forbidden"
            "directory traversal attempt blocked"
            (by rw [error_body_strlen, l7, l8, l10]; unfold MAXBUF; omega) (by decide)
          exact ⟨filename, "403", "Forbidden", "directory traversal attempt blocked", err,
            herr, by simp [hread, htr, herr], hstat, hlast, Or.inr (Or.inr rfl)⟩

/-- A request for which `traversal_fits` speaks: `get /a/../b` for a readable regular
file, with one header line, gets the 403 response and the queue is as it was. -/
theorem traversal_example :
    resolved_filename "/a/../b" = "./a/../b" ∧
      strstr (resolved_filename "/a/../b") ".." = true ∧
      (request_handle one_queued 9 "get /a/../b HTTP/1.0\r\n" ["Host: x\r\n", "\r\n"]
          fs_regular).map (fun h => (h.s, h.returned, status_line h.out, closes 9 h.out)) =
        some (one_queued, true, some "HTTP/1.0 403 Forbidden\r\n", 1) := by
  decide

/-! ## C12, C13: a request that overflows `body` in `request_error` -/

/-- A body of `MAXBUF` bytes or more does not fit `body`: `request_error` has no defined
result. -/
theorem request_error_overflows (fd : Int) (cause errnum shortmsg longmsg : String)
    (h : MAXBUF ≤ strlen (error_body cause errnum shortmsg longmsg)) :
    request_error fd cause errnum shortmsg longmsg = none := by
  have hb : ¬ strlen (error_body cause errnum shortmsg longmsg) < MAXBUF := by omega
  simp [request_error, store, hb]

/-- Three conversions that find their tokens make up the call of `sscanf`. -/
theorem sscanf3_spec (buf method uri version : String) (r1 r2 r3 : List Char)
    (h1 : scan_token buf.toList = some (method, r1))
    (h2 : scan_token r1 = some (uri, r2)) (h3 : scan_token r2 = some (version, r3))
    (s1 : strlen method < MAXBUF) (s2 : strlen uri < MAXBUF)
    (s3 : strlen version < MAXBUF) :
    sscanf3 buf = some (method, uri, version) := by
  unfold sscanf3
  rw [h1]
  simp only [Option.bind_eq_bind, Option.some_bind, h2, h3, store_fits s1, store_fits s2,
    store_fits s3]

/-- A static request whose file name contains `".."` and is so long that no response
with it fits `body`: whatever `stat` answers, the handler has no defined result. -/
theorem long_name_overflows (s : State) (fd : Int) (line : String)
    (headers : List String) (fs : String → Option stat_t)
    (method uri version filename cgiargs : String) (rest : List String)
    (hline : strlen line < MAXBUF) (hsc : sscanf3 line = some (method, uri, version))
    (hm : strcasecmp method "GET" = false)
    (hdr : request_read_headers headers = some rest)
    (hparse : request_parse_uri uri = some (true, filename, cgiargs))
    (htrav : strstr filename ".." = true)
    (hlen : MAXBUF ≤ strlen filename + 139) :
    request_handle s fd line headers fs = none := by
  have l1 : strlen "404" = 3 := by decide
  have l2 : strlen "Not found" = 9 := by decide
  have l3 : strlen "file not found on server" = 24 := by decide
  have l4 : strlen "403" = 3 := by decide
  have l5 : strlen "Forbidden" = 9 := by decide
  have l6 : strlen "cannot read this file" = 21 := by decide
  have l7 : strlen "directory traversal attempt blocked" = 35 := by decide
  have e1 := request_error_overflows fd filename "404" "Not found"
    "file not found on server" (by rw [error_body_strlen, l1, l2, l3]; omega)
  have e2 := request_error_overflows fd filename "403" "Forbidden"
    "cannot read this file" (by rw [error_body_strlen, l4, l5, l6]; omega)
  have e3 := request_error_overflows fd filename "403" "Forbidden"
    "directory traversal attempt blocked" (by rw [error_body_strlen, l4, l5, l7]; omega)
  unfold request_handle
  simp only [store_fits hline, hsc, hm, hdr, hparse, Option.bind_eq_bind, Option.some_bind]
  cases hfs : fs filename with
  | none => simp [e1]
  | some sbuf =>
    by_cases hread : (!(S_ISREG sbuf.st_mode) || !(S_IRUSR sbuf.st_mode)) = true
    · simp [hread, e2]
    · simp [hread, htrav, e3]

theorem long_method_strlen : strlen long_method = 8031 := by
  rw [long_method, strlen_mk_replicate]
  decide

theorem long_method_line_strlen : strlen long_method_line = 8044 := by
  have h : strlen " / HTTP/1.0\r\n" = 13 := by decide
  rw [long_method_line, strlen_append, long_method_strlen, h]

theorem long_method_differs : strcasecmp long_method "GET" = true := by
  simp only [strcasecmp, decide_eq_true_eq]
  intro h
  have hl := congrArg List.length h
  rw [long_method] at hl
  simp only [String.toList, List.length_map, List.length_replicate] at hl
  exact absurd hl (by decide)

theorem long_method_token : scan_token long_method_line.toList =
    some (long_method, " / HTTP/1.0\r\n".toList) := by
  have h := scan_token_spec [] (List.replicate 8031 'X') ' ' "/ HTTP/1.0\r\n".toList
    (fun x hx => absurd hx (List.not_mem_nil x)) (replicate_ne_nil _ _ (by decide))
    (fun x hx => by rw [List.eq_of_mem_replicate hx]; decide)
    (by decide)
  rw [List.nil_append] at h
  have e : " / HTTP/1.0\r\n".toList = ' ' :: "/ HTTP/1.0\r\n".toList := by decide
  rw [long_method_line, String.toList, String.data_append, long_method]
  rw [String.toList] at e
  rw [e]
  exact h

theorem long_method_tokens :
    sscanf3 long_method_line = some (long_method, "/", "HTTP/1.0") :=
  sscanf3_spec long_method_line long_method "/" "HTTP/1.0" " / HTTP/1.0\r\n".toList
    " HTTP/1.0\r\n".toList "\r\n".toList long_method_token
    (by decide) (by decide) (by rw [long_method_strlen]; decide) (by decide) (by decide)

theorem long_method_body : strlen (error_body long_method "501" "Not Implemented"
    "server does not implement this method") = 8192 := by
  have h1 : strlen "501" = 3 := by decide
  have h2 : strlen "Not Implemented" = 15 := by decide
  have h3 : strlen "server does not implement this method" = 37 := by decide
  rw [error_body_strlen, long_method_strlen, h1, h2, h3]

/-- C13, the failing input. The request line has 8044 bytes and fits `buf`; its method
token, 8031 bytes, differs from `GET`. The body that `request_error` formats for the 501
response has 8192 bytes, with its zero byte one more than `body` has room for: `sprintf`
writes behind the array and the handler has no defined result, where the claim has it
write the 501 response and return. -/
theorem long_method_overflows :
    strlen long_method_line = 8044 ∧
      sscanf3 long_method_line = some (long_method, "/", "HTTP/1.0") ∧
      strcasecmp long_method "GET" = true ∧
      strlen (error_body long_method "501" "Not Implemented"
        "server does not implement this method") = 8192 ∧
      request_error 7 long_method "501" "Not Implemented"
        "server does not implement this method" = none ∧
      request_handle after_dequeue 7 long_method_line ["\r\n"] fs_regular = none :=
  ⟨long_method_line_strlen, long_method_tokens, long_method_differs, long_method_body,
    request_error_overflows 7 long_method "501" "Not Implemented"
      "server does not implement this method" (by rw [long_method_body]; decide),
    (method_check_fits after_dequeue 7 long_method_line ["\r\n"] fs_regular long_method "/"
      "HTTP/1.0" (by rw [long_method_line_strlen]; decide) long_method_tokens).2.1
      long_method_differs (by rw [long_method_strlen])⟩

theorem long_uri_strlen : strlen long_uri = 8119 := by
  have h : strlen "/../" = 4 := by decide
  rw [long_uri, strlen_append, strlen_mk_replicate, h]
  decide

theorem long_uri_line_strlen : strlen long_uri_line = 8134 := by
  have h1 : strlen "GET " = 4 := by decide
  have h2 : strlen " HTTP/1.0\r\n" = 11 := by decide
  rw [long_uri_line, strlen_append, strlen_append, long_uri_strlen, h1, h2]

theorem long_uri_data : long_uri.toList = "/../".toList ++ List.replicate 8115 'a' := by
  rw [long_uri, String.toList, String.data_append]
  rfl

theorem long_uri_nospace (x : Char) (hx : x ∈ long_uri.toList) : isspace x = false := by
  rw [long_uri_data, List.mem_append] at hx
  rcases hx with hx | hx
  · have h : ∀ y ∈ "/../".toList, isspace y = false := by decide
    exact h x hx
  · rw [List.eq_of_mem_replicate hx]
    decide

theorem long_uri_last : long_uri.toList.getLast? = some 'a' := by
  rw [long_uri_data, List.getLast?_append, List.getLast?_replicate]
  rfl

theorem long_uri_token1 : scan_token long_uri_line.toList =
    some ("GET", ' ' :: (long_uri.toList ++ " HTTP/1.0\r\n".toList)) := by
  have e1 : "GET ".toList = [] ++ ("GET".toList ++ [' ']) := by decide
  have h := scan_token_spec [] "GET".toList ' ' (long_uri.toList ++ " HTTP/1.0\r\n".toList)
    (fun x hx => absurd hx (List.not_mem_nil x)) (by decide) (by decide) (by decide)
  have e : long_uri_line.toList =
      [] ++ ("GET".toList ++ ' ' :: (long_uri.toList ++ " HTTP/1.0\r\n".toList)) := by
    rw [long_uri_line, String.toList, String.data_append, String.data_append,
      List.append_assoc, ← String.toList, ← String.toList, ← String.toList, e1]
    simp only [List.nil_append, List.append_assoc, List.singleton_append]
  rw [e]
  exact h

theorem long_uri_token2 :
    scan_token (' ' :: (long_uri.toList ++ " HTTP/1.0\r\n".toList)) =
      some (long_uri, " HTTP/1.0\r\n".toList) := by
  have hne : long_uri.toList ≠ [] := by
    rw [long_uri_data]
    exact List.append_ne_nil_of_left_ne_nil (by decide) _
  have e2 : " HTTP/1.0\r\n".toList = ' ' :: "HTTP/1.0\r\n".toList := by decide
  have h := scan_token_spec [' '] long_uri.toList ' ' "HTTP/1.0\r\n".toList (by decide) hne
    long_uri_nospace (by decide)
  rw [List.singleton_append, ← e2] at h
  exact h

theorem long_uri_tokens : sscanf3 long_uri_line = some ("GET", long_uri, "HTTP/1.0") :=
  sscanf3_spec long_uri_line "GET" long_uri "HTTP/1.0"
    (' ' :: (long_uri.toList ++ " HTTP/1.0\r\n".toList)) " HTTP/1.0\r\n".toList
    "\r\n".toList long_uri_token1 long_uri_token2
    (by decide) (by decide) (by rw [long_uri_strlen]; decide) (by decide)

theorem long_uri_resolved : resolved_filename long_uri = "." ++ long_uri := by
  unfold resolved_filename
  rw [long_uri_last]
  simp

theorem long_uri_parse :
    request_parse_uri long_uri = some (true, "." ++ long_uri, "") := by
  have hc : strstr long_uri "cgi" = false := by
    apply strstr_absent long_uri "cgi" 'c' ['g', 'i'] rfl
    rw [long_uri_data, List.mem_append]
    intro h
    rcases h with h | h
    · exact absurd h (by decide)
    · exact absurd (List.eq_of_mem_replicate h) (by decide)
  have s1 : store "" = some "" := by decide
  have hl : strlen ("." ++ long_uri) = 8120 := by
    have h : strlen "." = 1 := by decide
    rw [strlen_append, long_uri_strlen, h]
  have s2 : store ("." ++ long_uri) = some ("." ++ long_uri) :=
    store_fits (by rw [hl]; decide)
  unfold request_parse_uri
  simp only [hc, s1, s2, long_uri_last, Bool.not_false, if_true, Option.bind_eq_bind,
    Option.some_bind]
  rfl

theorem long_uri_traversal : strstr ("." ++ long_uri) ".." = true := by
  apply strstr_present ("." ++ long_uri) ".." ['.', '/'] ('/' :: List.replicate 8115 'a')
  show ("." ++ long_uri).data = _
  rw [String.data_append]
  show ".".data ++ long_uri.toList = _
  rw [long_uri_data]
  rfl

theorem long_uri_body : strlen (error_body ("." ++ long_uri) "403" "Forbidden"
    "directory traversal attempt blocked") = 8273 := by
  have h0 : strlen "." = 1 := by decide
  have h1 : strlen "403" = 3 := by decide
  have h2 : strlen "Forbidden" = 9 := by decide
  have h3 : strlen "directory traversal attempt blocked" = 35 := by decide
  rw [error_body_strlen, strlen_append, long_uri_strlen, h0, h1, h2, h3]

theorem long_uri_body_404 : strlen (error_body ("." ++ long_uri) "404" "Not found"
    "file not found on server") = 8262 := by
  have h0 : strlen "." = 1 := by decide
  have h1 : strlen "404" = 3 := by decide
  have h2 : strlen "Not found" = 9 := by decide
  have h3 : strlen "file not found on server" = 24 := by decide
  rw [error_body_strlen, strlen_append, long_uri_strlen, h0, h1, h2, h3]

/-- C12, the failing input. The request line `GET /../aa...a HTTP/1.0` has 8134 bytes and
fits `buf`; the resolved file name, `"."` followed by the URI, has 8120 bytes, fits
`filename` and contains `".."`. The body that `request_error` formats has 8262 bytes when
`stat` fails (the 404 response) and 8273 bytes at the traversal check (the 403 response),
more than `body` has room for: whatever `stat` answers, `sprintf` writes behind the array
and the handler has no defined result, where the claim has it write an error response and
leave the queue as it was. -/
theorem long_traversal_overflows :
    strlen long_uri_line = 8134 ∧
      sscanf3 long_uri_line = some ("GET", long_uri, "HTTP/1.0") ∧
      request_parse_uri long_uri = some (true, resolved_filename long_uri, "") ∧
      strstr (resolved_filename long_uri) ".." = true ∧
      strlen (error_body (resolved_filename long_uri) "404" "Not found"
        "file not found on server") = 8262 ∧
      strlen (error_body (resolved_filename long_uri) "403" "Forbidden"
        "directory traversal attempt blocked") = 8273 ∧
      request_error 7 (resolved_filename long_uri) "404" "Not found"
        "file not found on server" = none ∧
      request_error 7 (resolved_filename long_uri) "403" "Forbidden"
        "directory traversal attempt blocked" = none ∧
      request_handle after_dequeue 7 long_uri_line ["\r\n"] (fun _ => none) = none ∧
      request_handle after_dequeue 7 long_uri_line ["\r\n"] fs_regular = none ∧
      ∀ fs : String → Option stat_t,
        request_handle after_dequeue 7 long_uri_line ["\r\n"] fs = none := by
  have hall : ∀ fs : String → Option stat_t,
      request_handle after_dequeue 7 long_uri_line ["\r\n"] fs = none := fun fs =>
    long_name_overflows after_dequeue 7 long_uri_line ["\r\n"] fs "GET" long_uri
      "HTTP/1.0" ("." ++ long_uri) "" [] (by rw [long_uri_line_strlen]; decide)
      long_uri_tokens (by decide) (by decide) long_uri_parse long_uri_traversal
      (by
        have h : strlen "." = 1 := by decide
        rw [strlen_append, long_uri_strlen, h]
        decide)
  rw [long_uri_resolved]
  exact ⟨long_uri_line_strlen, long_uri_tokens, long_uri_parse, long_uri_traversal,
    long_uri_body_404, long_uri_body,
    request_error_overflows 7 ("." ++ long_uri) "404" "Not found"
      "file not found on server" (by rw [long_uri_body_404]; decide),
    request_error_overflows 7 ("." ++ long_uri) "403" "Forbidden"
      "directory traversal attempt blocked" (by rw [long_uri_body]; decide),
    hall _, hall _, hall⟩

end Request
